import Mathlib

/-!
# Verification of the django-fast-treenode tree-storage engine

Shallow embedding of the core of the `treenode` package (version 3 code:
`treenode/utils/db/compiler.py`, `treenode/models/models.py`,
`treenode/models/mixins/update.py`, `treenode/managers/tasks.py`,
`treenode/models/mixins/logical.py`, `treenode/managers/queries.py`,
`treenode/cache.py`) together with theorems settling the frozen claims
about it.

A database table of a tree model is a list of rows.  Each row carries the
columns used by the engine: `id` (primary key), `parent_id` (nullable
self-reference), `priority` (sibling order), `_path` (materialized path),
`_depth`, plus one column standing for a user-defined sorting field
(`sortval`) and one opaque user column (`user`).
-/

namespace TreeNode

/-- One row of the adjacency table (`id`, `parent_id`, `priority`, `_path`,
`_depth`, a user sorting column and an opaque user column). -/
structure Row where
  id : Nat
  parent_id : Option Nat
  priority : Nat
  path : String
  depth : Nat
  sortval : Nat
  user : Nat
deriving Repr, DecidableEq

/-- A table state: the list of rows, in physical order. -/
abbrev Table := List Row

/-- `SELECT ... WHERE parent_id = pid` (with `IS NULL` for `none`),
in table order. -/
def childRows (T : Table) (pid : Option Nat) : List Row :=
  T.filter (fun r => r.parent_id == pid)

/-- Ids of a table, in order. -/
def idsOf (T : Table) : List Nat := T.map Row.id

/-- The primary-key constraint: ids are pairwise distinct. -/
def NodupIds (T : Table) : Prop := (idsOf T).Nodup

/-- `SELECT ... WHERE id = i` under a unique index: the first matching row. -/
def rowById (T : Table) (i : Nat) : Option Row :=
  T.find? (fun r => r.id == i)

/-! ## Hex segment codec

`SQLCompat.to_hex` renders an integer as uppercase hexadecimal (no leading
zeros, `0` for zero) and `LPAD(s, L, '0')` pads on the left to width `L`,
truncating to the leftmost `L` characters when `s` is longer (PostgreSQL
semantics; the compiler's terminal statement is in PostgreSQL
`UPDATE ... FROM` form). -/

/-- One uppercase hexadecimal digit character for a value `< 16`. -/
def hexDigit (n : Nat) : Char :=
  if n < 10 then Char.ofNat (48 + n) else Char.ofNat (55 + n)

/-- Digits of `n` in base 16, most significant first; empty for `0`.
Fuel-driven: `fuel = n` always suffices. -/
def hexAux : Nat → Nat → List Char
  | 0, _ => []
  | fuel + 1, n => if n == 0 then [] else hexAux fuel (n / 16) ++ [hexDigit (n % 16)]

/-- `UPPER(TO_HEX(n))`: uppercase hexadecimal rendering, `"0"` for zero. -/
def hexU (n : Nat) : String :=
  if n == 0 then "0" else String.mk (hexAux n n)

/-- Zero-pad a string on the left to width `L` (no truncation).  This is
also what Python's `f"{n:0{L}X}"` does to `hexU n`. -/
def lpadZ (L : Nat) (s : String) : String :=
  String.mk (List.replicate (L - s.length) '0') ++ s

/-- `LPAD(hexU n, L, '0')` with PostgreSQL truncation semantics: if the
rendering is longer than `L`, keep the leftmost `L` characters. -/
def seg (L n : Nat) : String :=
  let s := hexU n
  if L ≤ s.length then String.mk (s.data.take L) else lpadZ L s

/-- Number of `'.'` characters of a string (`_path.count('.')`,
`count('.', _path)`). -/
def countDots (s : String) : Nat := s.data.count '.'

/-! ## Sibling ordering

`ORDER BY c.priority, c.id` for the default `sorting_field = "priority"`;
`ORDER BY c.<field>` alone otherwise (mirroring
`sorting_fields = ["priority", "id"] if sorting_field == "priority" else
[sorting_field]` in `compiler.py`). -/

/-- The emitted list of ordering columns, verbatim from
`TreePathCompiler.update_path` / `RawSQLMixin._update_path`. -/
def sorting_fields (sorting_field : String) : List String :=
  if sorting_field == "priority" then ["priority", "id"] else [sorting_field]

/-- Comparison for the default sort: by `priority`, ties by ascending `id`. -/
def lePr (a b : Row) : Bool :=
  Nat.blt a.priority b.priority ||
    (a.priority == b.priority && Nat.ble a.id b.id)

/-- Comparison when a custom sorting field is configured: by that field
only — no id tiebreaker is emitted. -/
def leS (a b : Row) : Bool := Nat.ble a.sortval b.sortval

/-- Insert into a sorted list (used to model a deterministic `ORDER BY`). -/
def insertLe (le : Row → Row → Bool) (x : Row) : List Row → List Row
  | [] => [x]
  | y :: ys => if le x y then x :: y :: ys else y :: insertLe le x ys

/-- Insertion sort by a boolean comparison. -/
def isortLe (le : Row → Row → Bool) : List Row → List Row
  | [] => []
  | x :: xs => insertLe le x (isortLe le xs)

/-- The deterministic sibling enumeration for the default configuration. -/
def sortRows (rows : List Row) : List Row := isortLe lePr rows

/-- A function is an admissible result of the database's `ORDER BY` for a
comparison `le` iff it returns a permutation of its input that is sorted
(non-strictly) by `le`.  The database is free to order ties arbitrarily. -/
def SibOrder (le : Row → Row → Bool) (ord : List Row → List Row) : Prop :=
  ∀ l : List Row, (ord l).Perm l ∧ (ord l).Pairwise (fun a b => le a b = true)

/-! ## The path/depth compiler (`TreePathCompiler.update_path`)

The recursive CTE is modelled level by level: the anchor selects the
direct children of `parent_id` (or all roots), ordered and numbered with
`ROW_NUMBER() - 1`; each further iteration selects the children of the
previous iteration's rows, numbered per parent.  The terminal
`UPDATE ... FROM` writes the computed `(priority, _path, _depth)` triple
back by id.  A recursive CTE iterates until no new rows appear; on a table
whose parent chains terminate (the foreign key plus the no-cycle invariant)
this happens within `T.length` iterations, so levels `0 .. T.length`
capture the whole CTE. -/

/-- One row of the CTE: `(id, new_priority, new_path, new_depth)`. -/
structure Assign where
  id : Nat
  pr : Nat
  path : String
  depth : Nat
deriving Repr, DecidableEq

/-- Pair the elements of a list with consecutive indices starting at `i`. -/
def numberFrom : Nat → List Row → List (Nat × Row)
  | _, [] => []
  | i, r :: rs => (i, r) :: numberFrom (i + 1) rs

/-- CTE rows produced for the children of a node whose (already computed or
seed) path and depth are `ppath`/`pdepth`:
`ROW_NUMBER() OVER (PARTITION BY c.parent_id ORDER BY ...) - 1`,
`new_path = parent_path || '.' || LPAD(UPPER(TO_HEX(n)), L, '0')`,
`new_depth = parent_depth + 1`. -/
def childAssigns (L : Nat) (ord : List Row → List Row) (T : Table)
    (ppath : String) (pdepth : Nat) (pid : Nat) : List Assign :=
  (numberFrom 0 (ord (childRows T (some pid)))).map
    (fun ir => ⟨ir.2.id, ir.1, ppath ++ "." ++ seg L ir.1, pdepth + 1⟩)

/-- The anchor of the CTE.  For `parent_id = NULL`: all roots, numbered,
with `new_path = LPAD(...)` and `new_depth = 0`.  Otherwise: the children
of the given parent, seeded by the parent's stored `_path` and `_depth`
(the join `JOIN T p ON c.parent_id = p.id WHERE p.id = %s`). -/
def anchorAssigns (L : Nat) (ord : List Row → List Row) (T : Table) :
    Option Nat → List Assign
  | none =>
      (numberFrom 0 (ord (childRows T none))).map
        (fun ir => ⟨ir.2.id, ir.1, seg L ir.1, 0⟩)
  | some p =>
      match rowById T p with
      | none => []
      | some prow => childAssigns L ord T prow.path prow.depth p

/-- The `k`-th iteration of the recursive CTE (level 0 = anchor). -/
def levels (L : Nat) (ord : List Row → List Row) (T : Table)
    (anchor : List Assign) : Nat → List Assign
  | 0 => anchor
  | k + 1 =>
      (levels L ord T anchor k).flatMap
        (fun s => childAssigns L ord T s.path s.depth s.id)

/-- All rows of the recursive CTE (levels `0 .. T.length`). -/
def cteAssigns (L : Nat) (ord : List Row → List Row) (T : Table)
    (pid : Option Nat) : List Assign :=
  (List.range (T.length + 1)).flatMap
    (levels L ord T (anchorAssigns L ord T pid))

/-- The terminal `UPDATE ... SET priority, _path, _depth ... WHERE
orig.id = t.id`, applied to one row. -/
def applyRow (A : List Assign) (r : Row) : Row :=
  match A.find? (fun a => a.id == r.id) with
  | some a => { r with priority := a.pr, path := a.path, depth := a.depth }
  | none => r

/-- The terminal UPDATE applied to the whole table. -/
def applyAssigns (T : Table) (A : List Assign) : Table :=
  T.map (applyRow A)

/-- `TreePathCompiler.update_path` with an explicit sibling enumeration
`ord` (the database's `ORDER BY` result). -/
def updatePathWith (L : Nat) (ord : List Row → List Row) (T : Table)
    (pid : Option Nat) : Table :=
  applyAssigns T (cteAssigns L ord T pid)

/-- `TreePathCompiler.update_path` under the default configuration
(`sorting_field = "priority"`, where the emitted ordering
`ORDER BY c.priority, c.id` is total and deterministic). -/
def updatePath (L : Nat) (T : Table) (pid : Option Nat) : Table :=
  updatePathWith L sortRows T pid

/-! ## Table well-formedness

A legal database state has unique ids, every non-null `parent_id`
references an existing row (the self foreign key), and parent chains
terminate (invariant 6 of the data model: no cycles).  `chainOk` chases a
parent pointer with fuel; on a table of `n` rows a terminating chain needs
at most `n` steps. -/

/-- Chase a parent pointer: `true` iff the chain reaches `NULL` within
`fuel` steps, resolving every intermediate id. -/
def chainOk (T : Table) : Nat → Option Nat → Bool
  | _, none => true
  | 0, some _ => false
  | fuel + 1, some p =>
      match rowById T p with
      | none => false
      | some r => chainOk T fuel r.parent_id

/-- Number of ancestors above a parent pointer, with fuel. -/
def clen (T : Table) : Nat → Option Nat → Option Nat
  | _, none => some 0
  | 0, some _ => none
  | fuel + 1, some p =>
      match rowById T p with
      | none => none
      | some r => (clen T fuel r.parent_id).map (· + 1)

/-- Fuel-free chain length: the parent pointer resolves to a terminating
chain of `k` ancestors for some sufficient fuel. -/
def HasRank (T : Table) (pid : Option Nat) (k : Nat) : Prop :=
  ∃ fuel, clen T fuel pid = some k

/-- Well-formed table: unique ids and terminating, fully resolved parent
chains. -/
def WF (T : Table) : Prop :=
  NodupIds T ∧ ∀ r ∈ T, chainOk T T.length r.parent_id = true

/-- The ancestor id chain above a parent pointer (nearest first), stopping
at `NULL`, at a dangling reference, or when fuel runs out. -/
def ancUp (T : Table) : Nat → Option Nat → List Nat
  | _, none => []
  | 0, some _ => []
  | fuel + 1, some p =>
      p :: (match rowById T p with
            | none => []
            | some r => ancUp T fuel r.parent_id)

/-- Row `r` lies strictly inside the subtree of node `p`: `p` occurs on
`r`'s ancestor chain. -/
def BelowRow (T : Table) (p : Nat) (r : Row) : Prop :=
  ∃ fuel, p ∈ ancUp T fuel r.parent_id

/-- The rows rewritten by `update_path(model, pid)`: the whole forest for
`pid = NULL`, otherwise the strict descendants of `pid`. -/
def InRebuilt (T : Table) (pid : Option Nat) (r : Row) : Prop :=
  match pid with
  | none => True
  | some p => BelowRow T p r

/-! ## The task queue (`TreeTaskQueue`)

Tasks are `{"mode": ..., "parent_id": ...}` records; all producers enqueue
mode `"update"`.  `_optimize` coalesces the queue using
`_get_common_ancestor`, which compares the root-to-node id paths produced
by a recursive ancestor CTE. -/

/-- One queued task. -/
structure Task where
  mode : String
  parent_id : Option Nat
deriving Repr, DecidableEq

/-- `SELECT id FROM T WHERE parent_id IS NULL` (table order). -/
def rootIds (T : Table) : List Nat :=
  (T.filter (fun r => r.parent_id == none)).map Row.id

/-- The id chain `[i, parent, ..., root]` of `_get_ancestor_path`'s CTE
before the `ORDER BY depth DESC` (empty when `i` is not in the table). -/
def ancSelf (T : Table) : Nat → Nat → List Nat
  | 0, _ => []
  | fuel + 1, i =>
      match rowById T i with
      | none => []
      | some r =>
          i :: (match r.parent_id with
                | none => []
                | some p => ancSelf T fuel p)

/-- `TreeTaskQueue._get_ancestor_path`: ancestor ids from the root down to
the node itself. -/
def getAncestorPath (T : Table) (i : Nat) : List Nat :=
  (ancSelf T T.length i).reverse

/-- The zip loop of `_get_common_ancestor`: last element of the longest
common prefix. -/
def commonPre : List Nat → List Nat → Option Nat
  | x :: xs, y :: ys =>
      if x = y then
        match commonPre xs ys with
        | some z => some z
        | none => some x
      else none
  | _, _ => none

/-- `TreeTaskQueue._get_common_ancestor`. -/
def commonAncestor (T : Table) (a b : Nat) : Option Nat :=
  commonPre (getAncestorPath T a) (getAncestorPath T b)

/-- The inner `for other in id_list[:]` loop of `_optimize`: the first
`other` whose common ancestor with `current` exists, together with that
ancestor. -/
def findMerge (T : Table) (current : Nat) : List Nat → Option (Nat × Nat)
  | [] => none
  | other :: rest =>
      match commonAncestor T current other with
      | some anc => some (other, anc)
      | none => findMerge T current rest

/-- The `while id_list:` loop of `_optimize`.  `none` models the early
`return [{"mode": "update", "parent_id": None}]`.  Each iteration shrinks
`id_list` by at least one element, so fuel = initial length is exact. -/
def optimizeLoop (T : Table) :
    Nat → List Nat → List Nat → List Nat → Option (List Nat)
  | 0, _, _, res => some res
  | _ + 1, [], _, res => some res
  | fuel + 1, current :: rest, idset, res =>
      match findMerge T current rest with
      | none => optimizeLoop T fuel rest idset (res ++ [current])
      | some (other, anc) =>
          if anc ∈ rootIds T then none
          else
            let idset' := if anc ∈ idset then idset else idset ++ [anc]
            let rest' := (if anc ∈ idset then rest else rest ++ [anc]).erase other
            optimizeLoop T fuel rest' idset' res

/-- Deduplicate keeping first occurrences (`list(id_set)` of the collected
set, taken in insertion order). -/
def dedupN (l : List Nat) : List Nat :=
  l.foldl (fun acc x => if x ∈ acc then acc else acc ++ [x]) []

/-- Insert into an ascending list of naturals. -/
def insertN (x : Nat) : List Nat → List Nat
  | [] => [x]
  | y :: ys => if x ≤ y then x :: y :: ys else y :: insertN x ys

/-- `sorted(result_set)`. -/
def isortN : List Nat → List Nat
  | [] => []
  | x :: xs => insertN x (isortN xs)

/-- `TreeTaskQueue._optimize`. -/
def optimize (T : Table) (queue : List Task) : List Task :=
  if queue.any (fun t => t.mode == "update" && t.parent_id == none) then
    [⟨"update", none⟩]
  else
    let ids := dedupN (queue.filterMap
      (fun t => if t.mode == "update" then t.parent_id else none))
    match optimizeLoop T ids.length ids ids [] with
    | none => [⟨"update", none⟩]
    | some res => (isortN res).map (fun i => (⟨"update", some i⟩ : Task))

/-! ## The node save path (`TreeNodeModel.save`, version 3)

`save()` routes on `is_new` / `is_move` / `is_shift` computed against the
stored row, optionally shifts later siblings
(`RawSQLMixin._shift_siblings_forward`), enqueues `("update", parent_id)`
tasks and finally writes the instance's fields with the ORM `save()`
(an UPDATE of the existing row, or an INSERT). -/

/-- The in-memory model instance passed to `save()`.  `pk = none` models a
fresh instance, `priority = none` models a `None` priority. -/
structure Inst where
  pk : Option Nat
  parent_id : Option Nat
  priority : Option Nat
  path : String
  depth : Nat
  sortval : Nat
  user : Nat
deriving Repr, DecidableEq

/-- Result of `save()`: the new table and the task queue. -/
structure SaveOut where
  table : Table
  queue : List Task
deriving Repr, DecidableEq

/-- `TreeNodeModel.get_db_state`: `SELECT priority, parent_id ... WHERE
id = %s`. -/
def getDbState (T : Table) (i : Nat) : Option (Nat × Option Nat) :=
  (rowById T i).map (fun r => (r.priority, r.parent_id))

/-- `TreeNodeModel.generate_path`: the Python f-string
`f"{priority:0{SEGMENT_LENGTH}X}"` zero-pads without truncating.  The
parent's `_path` is the stored path of the parent row (`self.parent._path`;
the lookup cannot fail when the foreign key holds, and the
empty-string default is never reached in the theorems below). -/
def generate_path (L : Nat) (T : Table) (pid : Option Nat) (pri : Nat) :
    String :=
  let segment := lpadZ L (hexU pri)
  match pid with
  | none => segment
  | some p => ((rowById T p).map Row.path).getD "" ++ "." ++ segment

/-- `RawSQLMixin._shift_siblings_forward`: one UPDATE adding 1 to the
priority of the same-parent rows with `priority >= self.priority` — unless
the instance's priority is `None` or at least `BASE - 1`, in which case the
method returns without touching the table. -/
def shiftSiblingsForward (L : Nat) (T : Table) (pid : Option Nat)
    (pri : Option Nat) : Table :=
  match pri with
  | none => T
  | some v =>
      if 16 ^ L - 1 ≤ v then T
      else
        T.map (fun r =>
          if r.parent_id == pid && v ≤ r.priority then
            { r with priority := r.priority + 1 }
          else r)

/-- The row written by the ORM for an instance (all column values come from
the instance; a `None` priority would be rejected by the non-nullable
column and is unreachable under the theorems' hypotheses). -/
def rowOfInst (i : Nat) (inst : Inst) : Row :=
  ⟨i, inst.parent_id, inst.priority.getD 0, inst.path, inst.depth,
    inst.sortval, inst.user⟩

/-- The ORM write: UPDATE of the row with this id if present, INSERT
otherwise. -/
def upsert (T : Table) (i : Nat) (row : Row) : Table :=
  if T.any (fun r => r.id == i) then
    T.map (fun r => if r.id == i then row else r)
  else T ++ [row]

/-- `TreeNodeModel.save` (version 3, `models/models.py`).  `nextId` models
`self.db.get_next_id()`.  The function performs no cyclic-move and no
sibling-overflow check: there is no error path. -/
def saveV3 (L : Nat) (T : Table) (Q : List Task) (inst : Inst)
    (nextId : Nat) : SaveOut :=
  match inst.pk with
  | some i =>
      match getDbState T i with
      | none =>
          -- "object not found in DB": only a print; no routing flags set.
          { table := upsert T i (rowOfInst i inst), queue := Q }
      | some (oldPri, oldPar) =>
          let is_shift : Bool := inst.priority != some oldPri
          let is_move : Bool := inst.parent_id != oldPar
          let Q1 := if is_move then Q ++ [⟨"update", oldPar⟩] else Q
          if is_move || is_shift then
            let T1 :=
              if is_move && !(inst.priority == none) then
                shiftSiblingsForward L T inst.parent_id inst.priority
              else T
            { table := upsert T1 i (rowOfInst i inst),
              queue := Q1 ++ [⟨"update", inst.parent_id⟩] }
          else
            { table := upsert T i (rowOfInst i inst), queue := Q1 }
  | none =>
      let pri := match inst.priority with
        | none => 16 ^ L - 1
        | some v => v
      let path := generate_path L T inst.parent_id pri
      let inst2 : Inst :=
        { inst with pk := some nextId, priority := some pri, path := path,
                    depth := countDots path }
      let T1 := shiftSiblingsForward L T inst2.parent_id inst2.priority
      { table := upsert T1 nextId (rowOfInst nextId inst2),
        queue := Q ++ [⟨"update", inst2.parent_id⟩] }

/-! ## The relational query layer (`TreeQuery`) and logical mixin -/

/-- `TreeQuery.get_ancestors`: the recursive CTE walks the stored parent
chain starting at the node's stored `parent_id`, keeps non-null ids and
reverses, yielding root-to-immediate-parent order; `include_self` appends
the node itself. -/
def get_ancestors_pks (T : Table) (node : Row) (include_self : Bool) :
    List Nat :=
  let ids := ancUp T T.length ((rowById T node.id).bind Row.parent_id)
  (if include_self then node.id :: ids else ids).reverse

/-- `TreeNodeLogicalMixin.is_ancestor_of`, verbatim:
`return target.id in target.query("ancestors", include_self=False)` —
the receiver `self` is never consulted. -/
def is_ancestor_of (T : Table) (self target : Row) : Bool :=
  (get_ancestors_pks T target false).contains target.id

/-- Modelled from the spec's words, for comparison with the code: `a` is a
proper ancestor of `b` iff `a` appears on `b`'s parent chain. -/
def properAncestorSpec (T : Table) (a b : Row) : Prop :=
  a.id ∈ ancUp T T.length ((rowById T b.id).bind Row.parent_id)

/-! ## The cache (`TreeCache`, dict backend)

The in-memory dictionary backend of `TreeCache`: an association list for
the dict, the FIFO `order` deque, the `prefix_index`, the per-key `sizes`
and `key_prefix` maps, the byte total and the periodic-eviction counter.
`sys.getsizeof` is abstracted by storing each value together with its
size. -/

/-- A cached value together with its `sys.getsizeof` estimate. -/
structure CVal where
  val : Nat
  size : Nat
deriving Repr, DecidableEq

/-- The mutable state of the `TreeCache` singleton (dict backend). -/
structure CacheState where
  cache : List (String × CVal)
  order : List String
  pfxIndex : List (String × List String)
  sizes : List (String × Nat)
  keyPfx : List (String × String)
  total_size : Int
  setCounter : Nat
  limit : Nat
deriving Repr, DecidableEq

/-- Association-list lookup (`dict.get`). -/
def assocGet {α : Type} (l : List (String × α)) (k : String) : Option α :=
  (l.find? (fun p => p.1 == k)).map (fun p => p.2)

/-- Association-list store (`dict[k] = v`). -/
def assocSet {α : Type} (l : List (String × α)) (k : String) (v : α) :
    List (String × α) :=
  if l.any (fun p => p.1 == k) then
    l.map (fun p => if p.1 == k then (k, v) else p)
  else l ++ [(k, v)]

/-- Association-list removal (`dict.pop` / `del`). -/
def assocDrop {α : Type} (l : List (String × α)) (k : String) :
    List (String × α) :=
  l.filter (fun p => !(p.1 == k))

/-- Characters before the first underscore (`key.split('_', 1)[0]`). -/
def takeBeforeUnd : List Char → List Char
  | [] => []
  | c :: cs => if c = '_' then [] else c :: takeBeforeUnd cs

/-- The prefix computed by `TreeCache.set`:
`key.split('_', 1)[0] + "_"` when the key contains an underscore,
otherwise the key itself. -/
def keyPrefixOf (key : String) : String :=
  if key.data.contains '_' then String.mk (takeBeforeUnd key.data) ++ "_"
  else key

/-- `TreeCache.generate_cache_key` for the dict backend:
`f"{label}_{func_name}_{unique_id}_{args}_{sorted_kwargs}"`.  The rendering
of the argument tuple and sorted keyword list is passed in as `extra`. -/
def generate_cache_key (label func_name unique_id extra : String) : String :=
  label ++ "_" ++ func_name ++ "_" ++ unique_id ++ "_" ++ extra

/-- Add a key to a prefix's key set (`self.prefix_index[prefix].add(key)`). -/
def pfxAdd (idx : List (String × List String)) (p key : String) :
    List (String × List String) :=
  match assocGet idx p with
  | some ks => assocSet idx p (if key ∈ ks then ks else ks ++ [key])
  | none => idx ++ [(p, [key])]

/-- Remove a key from a prefix's key set, dropping the prefix entry when
it becomes empty (`prefix_index[prefix].discard(key)` plus the emptiness
cleanup). -/
def pfxDiscard (idx : List (String × List String)) (pfx : Option String)
    (key : String) : List (String × List String) :=
  match pfx with
  | none => idx
  | some p =>
      match assocGet idx p with
      | none => idx
      | some ks =>
          let ks' := ks.erase key
          if ks' = [] then assocDrop idx p else assocSet idx p ks'

/-- Evict the oldest FIFO entry from every cache structure. -/
def evictOne (s : CacheState) (key : String) (rest : List String) :
    CacheState :=
  { cache := assocDrop s.cache key,
    order := rest,
    pfxIndex := pfxDiscard s.pfxIndex (assocGet s.keyPfx key) key,
    sizes := assocDrop s.sizes key,
    keyPfx := assocDrop s.keyPfx key,
    total_size := s.total_size - (assocGet s.sizes key).getD 0,
    setCounter := s.setCounter,
    limit := s.limit }

/-- `TreeCache._evict_cache`'s while loop (pop the FIFO head and remove it
everywhere while the total exceeds the threshold).  The 0.8 float
threshold is modelled by the integer comparison
`5 * total_size > 4 * limit`. -/
def evictLoop : Nat → CacheState → CacheState
  | 0, s => s
  | fuel + 1, s =>
      if 5 * s.total_size > 4 * (s.limit : Int) then
        match s.order with
        | [] => s
        | key :: rest => evictLoop fuel (evictOne s key rest)
      else s

/-- `TreeCache._evict_cache`. -/
def cacheEvict (s : CacheState) : CacheState := evictLoop s.order.length s

/-- The internal-structure update of `TreeCache.set` for a key already in
`sizes` (adjust the byte total only). -/
def cacheSetOld (s : CacheState) (key : String) (v : CVal) : CacheState :=
  CacheState.mk (assocSet s.cache key v) s.order s.pfxIndex s.sizes s.keyPfx
    (s.total_size - ((assocGet s.sizes key).getD 0 : Nat)) s.setCounter
    s.limit

/-- The internal-structure update of `TreeCache.set` for a new key (append
to the FIFO, record the computed prefix). -/
def cacheSetNew (s : CacheState) (key : String) (v : CVal) : CacheState :=
  CacheState.mk (assocSet s.cache key v) (s.order ++ [key])
    (pfxAdd s.pfxIndex (keyPrefixOf key) key) s.sizes
    (assocSet s.keyPfx key (keyPrefixOf key)) s.total_size s.setCounter
    s.limit

/-- Record the new size, byte total and set counter. -/
def cacheSetFinish (s : CacheState) (key : String) (size : Nat) :
    CacheState :=
  CacheState.mk s.cache s.order s.pfxIndex (assocSet s.sizes key size)
    s.keyPfx (s.total_size + size) (s.setCounter + 1) s.limit

/-- Reset the periodic-eviction counter. -/
def cacheResetCounter (s : CacheState) : CacheState :=
  CacheState.mk s.cache s.order s.pfxIndex s.sizes s.keyPfx s.total_size 0
    s.limit

/-- `TreeCache.set` (dict backend). -/
def cacheSet (s : CacheState) (key : String) (v : CVal) : CacheState :=
  let s1 :=
    if (assocGet s.sizes key).isSome then cacheSetOld s key v
    else cacheSetNew s key v
  let s2 := cacheSetFinish s1 key v.size
  if 50 ≤ s2.setCounter then cacheEvict (cacheResetCounter s2) else s2

/-- `TreeCache.get` (dict backend). -/
def cacheGet (s : CacheState) (key : String) : Option CVal :=
  assocGet s.cache key

/-- `TreeCache.invalidate`: appends `'_'` to the given prefix, looks the
result up in `prefix_index` and removes the recorded keys everywhere;
returns unchanged when the index has no entry for that prefix. -/
def cacheInvalidate (s : CacheState) (pfx0 : String) : CacheState :=
  let p := pfx0 ++ "_"
  let keys := (assocGet s.pfxIndex p).getD []
  if keys = [] then s
  else
    { cache := s.cache.filter (fun kv => !(keys.contains kv.1)),
      order := s.order.filter (fun k => !(keys.contains k)),
      pfxIndex := assocDrop s.pfxIndex p,
      sizes := s.sizes.filter (fun kv => !(keys.contains kv.1)),
      keyPfx := s.keyPfx.filter (fun kv => !(keys.contains kv.1)),
      total_size :=
        s.total_size - ((keys.map (fun k => (assocGet s.sizes k).getD 0)).sum),
      setCounter := s.setCounter,
      limit := s.limit }

/-- The empty cache with a byte limit. -/
def emptyCache (limit : Nat) : CacheState :=
  ⟨[], [], [], [], [], 0, 0, limit⟩

/-- The consistency invariant maintained by the cache operations: every
stored key is recorded in the prefix index under its computed prefix. -/
def CacheWF (s : CacheState) : Prop :=
  ∀ kv ∈ s.cache, ∃ ks, assocGet s.pfxIndex (keyPrefixOf kv.1) = some ks ∧
    kv.1 ∈ ks

/-! ## Concrete states used as witnesses and counterexamples -/

/-- A four-row forest with stale derived columns (witness input for the
compiler theorems). -/
def wTable : Table :=
  [⟨1, none, 5, "", 0, 0, 0⟩, ⟨2, some 1, 3, "junk", 7, 0, 0⟩,
   ⟨3, some 1, 3, "x", 2, 0, 0⟩, ⟨4, some 3, 0, "", 9, 0, 0⟩]

/-- Two separate roots, with a chain of depth 2 under the second
(counterexample input for the coalescing claim). -/
def ceTable : Table :=
  [⟨1, none, 0, "000", 0, 0, 0⟩, ⟨2, none, 1, "001", 0, 0, 0⟩,
   ⟨3, some 2, 0, "001.000", 1, 0, 0⟩, ⟨4, some 3, 0, "001.000.000", 2, 0, 0⟩]

/-- A root, an inner node and two sibling leaves under the inner node
(witness input for the amended coalescing claim). -/
def sibTable : Table :=
  [⟨1, none, 0, "000", 0, 0, 0⟩, ⟨2, some 1, 0, "000.000", 1, 0, 0⟩,
   ⟨3, some 2, 0, "", 2, 0, 0⟩, ⟨4, some 2, 1, "", 2, 0, 0⟩]

/-- A root with a single child (input of the cyclic-move scenario). -/
def c3Table : Table :=
  [⟨1, none, 0, "000", 0, 0, 0⟩, ⟨2, some 1, 0, "000.000", 1, 0, 0⟩]

/-- The saved instance of the cyclic-move scenario: node 1 reparented
under its own child 2. -/
def c3Inst : Inst := ⟨some 1, some 2, some 0, "000", 0, 0, 0⟩

/-- A parent with `BASE` children for `SEGMENT_LENGTH = 1` (`BASE = 16`):
the overflow scenario S6. -/
def c4Table : Table :=
  ⟨100, none, 0, "0", 0, 0, 0⟩ ::
    (List.range 16).map (fun i => ⟨i + 1, some 100, i, "0." ++ seg 1 i, 1, 0, 0⟩)

/-- A fresh 17th-sibling instance for the overflow scenario. -/
def c4Inst : Inst := ⟨none, some 100, some 0, "", 0, 0, 0⟩

/-- A root with two children of priorities 0 and 1 (priority-change
scenario). -/
def c8Table : Table :=
  [⟨1, none, 0, "000", 0, 0, 0⟩, ⟨2, some 1, 0, "000.000", 1, 0, 0⟩,
   ⟨3, some 1, 1, "000.001", 1, 0, 0⟩]

/-- Node 2 with its priority changed from 0 to 1, parent unchanged. -/
def c8Inst : Inst := ⟨some 2, some 1, some 1, "000.000", 1, 0, 0⟩

/-- A root and its child (input of the ancestor-predicate scenario). -/
def c10Table : Table :=
  [⟨1, none, 0, "000", 0, 0, 0⟩, ⟨2, some 1, 0, "000.000", 1, 0, 0⟩]

/-- The root row of `c10Table`. -/
def c10Root : Row := ⟨1, none, 0, "000", 0, 0, 0⟩

/-- The child row of `c10Table`. -/
def c10Child : Row := ⟨2, some 1, 0, "000.000", 1, 0, 0⟩

/-- Two root rows with equal values of the custom sorting column and
distinct ids (tie scenario for the determinism claim). -/
def c6Table : Table :=
  [⟨1, none, 0, "", 0, 5, 0⟩, ⟨2, none, 0, "", 0, 5, 0⟩]

/-- One admissible `ORDER BY sortval` result: a stable sort. -/
def ordA : List Row → List Row := isortLe leS

/-- Another admissible `ORDER BY sortval` result: a stable sort of the
reversed input — the database may return either. -/
def ordB : List Row → List Row := fun l => isortLe leS l.reverse

/-- A cache key whose model label contains an underscore. -/
def c9Key : String := generate_cache_key "my_app.Item" "get_x" "1" "h"

/-- A cache state holding `c9Key` (one `set` on the empty cache). -/
def c9State : CacheState := cacheSet (emptyCache 1000) c9Key ⟨42, 10⟩

/-- A cache key whose model label contains no underscore. -/
def c9GoodKey : String := generate_cache_key "app.Item" "get_x" "1" "h"

/-- A cache state holding `c9GoodKey`. -/
def c9GoodState : CacheState := cacheSet (emptyCache 1000) c9GoodKey ⟨42, 10⟩

/-! ## Decidability instances for the well-formedness predicates -/

instance (T : Table) : Decidable (NodupIds T) := by
  unfold NodupIds; infer_instance

instance (T : Table) : Decidable (WF T) := by
  unfold WF; infer_instance

instance (T : Table) (a b : Row) : Decidable (properAncestorSpec T a b) := by
  unfold properAncestorSpec; infer_instance

instance (s : CacheState) : Decidable (CacheWF s) := by
  unfold CacheWF; infer_instance

/-! # Lemmas and theorems -/

/-! ## Keyed lookup -/

theorem find_key_eq {α : Type} (key : α → Nat) :
    ∀ (l : List α), (l.map key).Nodup → ∀ a ∈ l,
      l.find? (fun x => key x == key a) = some a := by
  intro l
  induction l with
  | nil => intro _ a ha; cases ha
  | cons x xs ih =>
    intro hnd a ha
    simp only [List.map_cons, List.nodup_cons] at hnd
    rcases List.mem_cons.1 ha with rfl | ha
    · exact List.find?_cons_of_pos _ (by simp)
    · have hne : ¬ (key x == key a) = true := by
        simp only [beq_iff_eq]
        intro h
        exact hnd.1 (h ▸ List.mem_map_of_mem key ha)
      have hne' : (key x == key a) = false := by
        simpa using hne
      simp [List.find?, hne', ih hnd.2 a ha]

theorem find_key_eq_none {α : Type} (key : α → Nat) (l : List α) (i : Nat)
    (h : ∀ a ∈ l, key a ≠ i) : l.find? (fun x => key x == i) = none := by
  apply List.find?_eq_none.2
  intro a ha
  simp only [beq_iff_eq]
  exact h a ha

theorem rowById_eq_self (T : Table) (hnd : NodupIds T) (r : Row)
    (hr : r ∈ T) : rowById T r.id = some r :=
  find_key_eq Row.id T hnd r hr

theorem rowById_mem {T : Table} {i : Nat} {r : Row}
    (h : rowById T i = some r) : r ∈ T ∧ r.id = i := by
  refine ⟨List.mem_of_find?_eq_some h, ?_⟩
  have := List.find?_some h
  simpa using this

/-! ## Insertion sort -/

theorem perm_insertLe (le : Row → Row → Bool) (x : Row) :
    ∀ l : List Row, (insertLe le x l).Perm (x :: l) := by
  intro l
  induction l with
  | nil => simp [insertLe]
  | cons y ys ih =>
    simp only [insertLe]
    by_cases h : le x y = true
    · simp [h]
    · rw [if_neg h]
      exact (ih.cons y).trans (List.Perm.swap x y ys)

theorem perm_isortLe (le : Row → Row → Bool) :
    ∀ l : List Row, (isortLe le l).Perm l := by
  intro l
  induction l with
  | nil => simp [isortLe]
  | cons x xs ih =>
    simp only [isortLe]
    exact (perm_insertLe le x (isortLe le xs)).trans (ih.cons x)

theorem pairwise_insertLe (le : Row → Row → Bool)
    (htot : ∀ a b, le a b = true ∨ le b a = true)
    (htr : ∀ a b c, le a b = true → le b c = true → le a c = true)
    (x : Row) :
    ∀ l : List Row, l.Pairwise (fun a b => le a b = true) →
      (insertLe le x l).Pairwise (fun a b => le a b = true) := by
  intro l
  induction l with
  | nil => intro _; simp [insertLe]
  | cons y ys ih =>
    intro hp
    rcases List.pairwise_cons.1 hp with ⟨hy, hys⟩
    simp only [insertLe]
    by_cases h : le x y = true
    · rw [if_pos h]
      refine List.pairwise_cons.2 ⟨?_, hp⟩
      intro b hb
      rcases List.mem_cons.1 hb with rfl | hb
      · exact h
      · exact htr x y b h (hy b hb)
    · rw [if_neg h]
      refine List.pairwise_cons.2 ⟨?_, ih hys⟩
      intro b hb
      have hb' := (perm_insertLe le x ys).mem_iff.1 hb
      rcases List.mem_cons.1 hb' with rfl | hb'
      · rcases htot b y with h' | h'
        · exact absurd h' h
        · exact h'
      · exact hy b hb'

theorem pairwise_isortLe (le : Row → Row → Bool)
    (htot : ∀ a b, le a b = true ∨ le b a = true)
    (htr : ∀ a b c, le a b = true → le b c = true → le a c = true) :
    ∀ l : List Row, (isortLe le l).Pairwise (fun a b => le a b = true) := by
  intro l
  induction l with
  | nil => simp [isortLe]
  | cons x xs ih => exact pairwise_insertLe le htot htr x _ ih

theorem lePr_total (a b : Row) : lePr a b = true ∨ lePr b a = true := by
  unfold lePr
  rcases Nat.lt_trichotomy a.priority b.priority with h | h | h
  · left; simp [Nat.blt_eq, h]
  · rcases Nat.le_total a.id b.id with h' | h'
    · left; simp [h, Nat.ble_eq, h']
    · right; simp [h, Nat.ble_eq, h']
  · right; simp [Nat.blt_eq, h]

theorem lePr_trans (a b c : Row) (h₁ : lePr a b = true)
    (h₂ : lePr b c = true) : lePr a c = true := by
  unfold lePr at *
  simp only [Bool.or_eq_true, Bool.and_eq_true, Nat.blt_eq, beq_iff_eq,
    Nat.ble_eq] at *
  rcases h₁ with h₁ | ⟨h₁, h₁'⟩ <;> rcases h₂ with h₂ | ⟨h₂, h₂'⟩
  · exact Or.inl (h₁.trans h₂)
  · exact Or.inl (h₂ ▸ h₁)
  · exact Or.inl (h₁ ▸ h₂)
  · exact Or.inr ⟨h₁.trans h₂, h₁'.trans h₂'⟩

theorem lePr_antisymm_of_ids {a b : Row} (h₁ : lePr a b = true)
    (h₂ : lePr b a = true) : a.priority = b.priority ∧ a.id = b.id := by
  unfold lePr at *
  simp only [Bool.or_eq_true, Bool.and_eq_true, Nat.blt_eq, beq_iff_eq,
    Nat.ble_eq] at *
  rcases h₁ with h₁ | ⟨h₁, h₁'⟩ <;> rcases h₂ with h₂ | ⟨h₂, h₂'⟩
  · exact absurd (h₁.trans h₂) (Nat.lt_irrefl _)
  · exact absurd h₁ (by omega)
  · exact absurd h₂ (by omega)
  · exact ⟨h₁, Nat.le_antisymm h₁' h₂'⟩

theorem leS_total (a b : Row) : leS a b = true ∨ leS b a = true := by
  unfold leS
  simp only [Nat.ble_eq]
  exact Nat.le_total _ _

theorem leS_trans (a b c : Row) (h₁ : leS a b = true)
    (h₂ : leS b c = true) : leS a c = true := by
  unfold leS at *
  simp only [Nat.ble_eq] at *
  exact h₁.trans h₂

/-- Two sorted permutations of each other are equal, provided the
comparison is antisymmetric on the elements involved. -/
theorem eq_of_perm_of_pairwise (le : Row → Row → Bool) :
    ∀ (l₁ l₂ : List Row), l₁.Perm l₂ →
      l₁.Pairwise (fun a b => le a b = true) →
      l₂.Pairwise (fun a b => le a b = true) →
      (∀ a ∈ l₁, ∀ b ∈ l₁, le a b = true → le b a = true → a = b) →
      l₁ = l₂ := by
  intro l₁
  induction l₁ with
  | nil => intro l₂ hp _ _ _; exact (hp.symm.eq_nil).symm
  | cons x xs ih =>
    intro l₂ hp h₁ h₂ hanti
    cases l₂ with
    | nil => exact absurd hp.symm (by simp)
    | cons y ys =>
      rcases List.pairwise_cons.1 h₁ with ⟨hx, hxs⟩
      rcases List.pairwise_cons.1 h₂ with ⟨hy, hys⟩
      by_cases hxy : x = y
      · subst hxy
        have : xs = ys := by
          refine ih ys (hp.cons_inv) hxs hys ?_
          intro a ha b hb
          exact hanti a (List.mem_cons_of_mem x ha) b (List.mem_cons_of_mem x hb)
        rw [this]
      · have hxmem : x ∈ y :: ys := hp.mem_iff.1 (List.mem_cons_self x xs)
        have hymem : y ∈ x :: xs := hp.symm.mem_iff.1 (List.mem_cons_self y ys)
        have hx' : x ∈ ys := by
          rcases List.mem_cons.1 hxmem with h | h
          · exact absurd h hxy
          · assumption
        have hy' : y ∈ xs := by
          rcases List.mem_cons.1 hymem with h | h
          · exact absurd h.symm hxy
          · assumption
        have h₁' := hx y hy'
        have h₂' := hy x hx'
        exact absurd (hanti x (List.mem_cons_self x xs) y
          (List.mem_cons_of_mem x hy') h₁' h₂') hxy

/-! ## Hexadecimal segments and dot counting -/

theorem data_append (s t : String) : (s ++ t).data = s.data ++ t.data := rfl

theorem length_eq_data (s : String) : s.length = s.data.length := rfl

theorem hexDigit_ne_dot (n : Nat) (h : n < 16) : hexDigit n ≠ '.' := by
  interval_cases n <;> decide

theorem hexAux_no_dot : ∀ fuel n, '.' ∉ hexAux fuel n := by
  intro fuel
  induction fuel with
  | zero => intro n; simp [hexAux]
  | succ fuel ih =>
    intro n
    by_cases h : n = 0
    · simp [hexAux, h]
    · rw [hexAux, if_neg (by simpa using h)]
      intro hmem
      rcases List.mem_append.1 hmem with h' | h'
      · exact ih _ h'
      · rw [List.mem_singleton] at h'
        exact hexDigit_ne_dot _ (Nat.mod_lt _ (by norm_num)) h'.symm

theorem hexU_no_dot (n : Nat) : '.' ∉ (hexU n).data := by
  unfold hexU
  by_cases h : n = 0
  · rw [if_pos (by simpa using h)]
    decide
  · rw [if_neg (by simpa using h)]
    exact hexAux_no_dot n n

theorem seg_no_dot (L n : Nat) : '.' ∉ (seg L n).data := by
  unfold seg
  by_cases h : L ≤ (hexU n).length
  · simp only [h, if_true]
    intro hmem
    exact hexU_no_dot n (List.mem_of_mem_take hmem)
  · simp only [h, if_false]
    unfold lpadZ
    rw [data_append]
    simp only [List.mem_append]
    rintro (h' | h')
    · have := List.eq_of_mem_replicate h'
      exact absurd this (by decide)
    · exact hexU_no_dot n h'

theorem countDots_append (s t : String) :
    countDots (s ++ t) = countDots s + countDots t := by
  unfold countDots
  rw [data_append, List.count_append]

theorem countDots_of_no_dot {s : String} (h : '.' ∉ s.data) :
    countDots s = 0 := by
  unfold countDots
  exact List.count_eq_zero.2 h

theorem countDots_dot_seg (p : String) (L n : Nat) :
    countDots (p ++ "." ++ seg L n) = countDots p + 1 := by
  rw [countDots_append, countDots_append]
  rw [countDots_of_no_dot (seg_no_dot L n)]
  norm_num [countDots]

theorem countDots_seg (L n : Nat) : countDots (seg L n) = 0 :=
  countDots_of_no_dot (seg_no_dot L n)

theorem hexAux_len : ∀ fuel n l, n < 16 ^ l → (hexAux fuel n).length ≤ l := by
  intro fuel
  induction fuel with
  | zero => intro n l _; simp [hexAux]
  | succ fuel ih =>
    intro n l hn
    by_cases h : n = 0
    · simp [hexAux, h]
    · rw [hexAux, if_neg (by simpa using h)]
      rw [List.length_append, List.length_singleton]
      have hl : l ≠ 0 := by
        intro h'
        subst h'
        simp at hn
        exact h hn
      obtain ⟨l', rfl⟩ := Nat.exists_eq_succ_of_ne_zero hl
      have hdiv : n / 16 < 16 ^ l' := by
        rw [Nat.div_lt_iff_lt_mul (by norm_num : 0 < 16)]
        calc n < 16 ^ (l' + 1) := hn
          _ = 16 ^ l' * 16 := by ring
      have := ih (n / 16) l' hdiv
      omega

theorem hexU_len (L n : Nat) (hL : 0 < L) (hn : n < 16 ^ L) :
    (hexU n).length ≤ L := by
  unfold hexU
  by_cases h : n = 0
  · rw [if_pos (by simpa using h)]
    exact hL
  · rw [if_neg (by simpa using h)]
    exact hexAux_len n n L hn

theorem seg_eq_lpadZ {L n : Nat} (h : (hexU n).length ≤ L) :
    seg L n = lpadZ L (hexU n) := by
  unfold seg
  by_cases h' : L ≤ (hexU n).length
  · have hlen : (hexU n).length = L := Nat.le_antisymm h h'
    simp only [h', if_true]
    unfold lpadZ
    rw [hlen, Nat.sub_self]
    simp only [List.replicate_zero]
    have h1 : String.mk ([] : List Char) ++ hexU n = hexU n := by
      cases hu : hexU n
      rfl
    rw [h1]
    have h2 : (hexU n).data.take L = (hexU n).data := by
      apply List.take_of_length_le
      rw [← length_eq_data, hlen]
    rw [h2]
  · simp [h']

/-! ## Enumeration (`ROW_NUMBER`) -/

theorem numberFrom_map_snd : ∀ (i : Nat) (l : List Row),
    (numberFrom i l).map Prod.snd = l := by
  intro i l
  induction l generalizing i with
  | nil => simp [numberFrom]
  | cons x xs ih => simp [numberFrom, ih]

theorem numberFrom_map_fst : ∀ (i : Nat) (l : List Row),
    (numberFrom i l).map Prod.fst = List.range' i l.length := by
  intro i l
  induction l generalizing i with
  | nil => simp [numberFrom]
  | cons x xs ih => simp [numberFrom, List.range', ih]

theorem mem_numberFrom_fst : ∀ (i : Nat) (l : List Row) (p : Nat × Row),
    p ∈ numberFrom i l → i ≤ p.1 ∧ p.1 < i + l.length ∧ p.2 ∈ l := by
  intro i l
  induction l generalizing i with
  | nil => intro p hp; simp [numberFrom] at hp
  | cons x xs ih =>
    intro p hp
    simp only [numberFrom, List.mem_cons] at hp
    rcases hp with rfl | hp
    · refine ⟨Nat.le_refl i, by simp only [List.length_cons]; omega, by simp⟩
    · have := ih (i + 1) p hp
      refine ⟨by omega, by simp only [List.length_cons]; omega, ?_⟩
      exact List.mem_cons_of_mem x this.2.2

theorem mem_numberFrom_of_mem : ∀ (i : Nat) (l : List Row) (r : Row),
    r ∈ l → ∃ k, k < l.length ∧ (i + k, r) ∈ numberFrom i l := by
  intro i l
  induction l generalizing i with
  | nil => intro r hr; cases hr
  | cons x xs ih =>
    intro r hr
    rcases List.mem_cons.1 hr with rfl | hr
    · exact ⟨0, by simp, by simp [numberFrom]⟩
    · obtain ⟨k, hk, hmem⟩ := ih (i + 1) r hr
      refine ⟨k + 1, by simp only [List.length_cons]; omega, ?_⟩
      simp only [numberFrom, List.mem_cons]
      right
      have : i + (k + 1) = i + 1 + k := by omega
      rw [this]
      exact hmem

/-! ## Chain lengths and ranks -/

theorem clen_none (T : Table) (fuel : Nat) : clen T fuel none = some 0 := by
  cases fuel <;> rfl

theorem clen_le (T : Table) :
    ∀ fuel pid k, clen T fuel pid = some k → k ≤ fuel := by
  intro fuel
  induction fuel with
  | zero =>
    intro pid k h
    cases pid with
    | none => simp [clen] at h; omega
    | some p => simp [clen] at h
  | succ fuel ih =>
    intro pid k h
    cases pid with
    | none => simp [clen] at h; omega
    | some p =>
      rw [clen] at h
      cases hfind : rowById T p with
      | none => simp only [hfind] at h; exact absurd h (by simp)
      | some r =>
        simp only [hfind, Option.map_eq_some'] at h
        obtain ⟨k', hk', rfl⟩ := h
        exact Nat.succ_le_succ (ih r.parent_id k' hk')

theorem clen_mono (T : Table) :
    ∀ fuel fuel' pid k, clen T fuel pid = some k → fuel ≤ fuel' →
      clen T fuel' pid = some k := by
  intro fuel
  induction fuel with
  | zero =>
    intro fuel' pid k h _
    cases pid with
    | none => simp [clen] at h; rw [← h]; exact clen_none T fuel'
    | some p => simp [clen] at h
  | succ fuel ih =>
    intro fuel' pid k h hle
    cases pid with
    | none => simp [clen] at h; rw [← h]; exact clen_none T fuel'
    | some p =>
      obtain ⟨fuel'', rfl⟩ := Nat.exists_eq_add_of_le hle
      rw [clen] at h
      cases hfind : rowById T p with
      | none => simp only [hfind] at h; exact absurd h (by simp)
      | some r =>
        simp only [hfind, Option.map_eq_some'] at h
        obtain ⟨k', hk', rfl⟩ := h
        have heq : fuel + 1 + fuel'' = (fuel + fuel'') + 1 := by omega
        rw [heq, clen]
        simp only [hfind]
        rw [ih (fuel + fuel'') r.parent_id k' hk' (by omega)]
        rfl

theorem chainOk_iff (T : Table) :
    ∀ fuel pid, chainOk T fuel pid = true ↔ ∃ k, clen T fuel pid = some k := by
  intro fuel
  induction fuel with
  | zero =>
    intro pid
    cases pid with
    | none => simp [chainOk, clen]
    | some p => simp [chainOk, clen]
  | succ fuel ih =>
    intro pid
    cases pid with
    | none => simp [chainOk, clen]
    | some p =>
      rw [chainOk, clen]
      cases hfind : rowById T p with
      | none => simp
      | some r =>
        simp only [ih r.parent_id]
        constructor
        · rintro ⟨k, hk⟩
          exact ⟨k + 1, by rw [hk]; rfl⟩
        · rintro ⟨k, hk⟩
          simp only [Option.map_eq_some'] at hk
          obtain ⟨k', hk', _⟩ := hk
          exact ⟨k', hk'⟩

theorem hasRank_unique {T : Table} {pid : Option Nat} {k k' : Nat}
    (h : HasRank T pid k) (h' : HasRank T pid k') : k = k' := by
  obtain ⟨f, hf⟩ := h
  obtain ⟨f', hf'⟩ := h'
  have h₁ := clen_mono T f (f + f') pid k hf (by omega)
  have h₂ := clen_mono T f' (f + f') pid k' hf' (by omega)
  rw [h₁] at h₂
  exact (Option.some_injective _ h₂)

theorem hasRank_none_iff (T : Table) (k : Nat) :
    HasRank T none k ↔ k = 0 := by
  constructor
  · rintro ⟨f, hf⟩
    rw [clen_none] at hf
    exact (Option.some_injective _ hf).symm
  · rintro rfl
    exact ⟨0, clen_none T 0⟩

theorem hasRank_parent {T : Table} {p : Nat} {r : Row}
    (hfind : rowById T p = some r) (k : Nat) :
    HasRank T (some p) (k + 1) ↔ HasRank T r.parent_id k := by
  constructor
  · rintro ⟨f, hf⟩
    cases f with
    | zero => simp [clen] at hf
    | succ f =>
      rw [clen] at hf
      simp only [hfind, Option.map_eq_some'] at hf
      obtain ⟨k', hk', hkk⟩ := hf
      have hkeq : k' = k := by omega
      exact ⟨f, hkeq ▸ hk'⟩
  · rintro ⟨f, hf⟩
    refine ⟨f + 1, ?_⟩
    rw [clen]
    simp only [hfind, hf]
    rfl

theorem hasRank_some_pos {T : Table} {p : Nat} {k : Nat}
    (h : HasRank T (some p) k) : 0 < k := by
  obtain ⟨f, hf⟩ := h
  cases f with
  | zero => simp [clen] at hf
  | succ f =>
    rw [clen] at hf
    cases hfind : rowById T p with
    | none => simp only [hfind] at hf; exact absurd hf (by simp)
    | some r =>
      simp only [hfind, Option.map_eq_some'] at hf
      obtain ⟨k', _, hkk⟩ := hf
      omega

theorem wf_rank {T : Table} (hwf : WF T) {r : Row} (hr : r ∈ T) :
    ∃ k, HasRank T r.parent_id k ∧ k ≤ T.length := by
  have h := hwf.2 r hr
  rw [chainOk_iff] at h
  obtain ⟨k, hk⟩ := h
  exact ⟨k, ⟨T.length, hk⟩, clen_le T T.length r.parent_id k hk⟩

/-! ## Ancestor chain membership -/

theorem mem_ancUp_mono (T : Table) :
    ∀ fuel fuel' pid p, p ∈ ancUp T fuel pid → fuel ≤ fuel' →
      p ∈ ancUp T fuel' pid := by
  intro fuel
  induction fuel with
  | zero =>
    intro fuel' pid p h _
    cases pid <;> simp [ancUp] at h
  | succ fuel ih =>
    intro fuel' pid p h hle
    cases pid with
    | none => simp [ancUp] at h
    | some q =>
      obtain ⟨fuel'', rfl⟩ := Nat.exists_eq_add_of_le hle
      have : fuel + 1 + fuel'' = (fuel + fuel'') + 1 := by omega
      rw [this, ancUp]
      rw [ancUp] at h
      rcases List.mem_cons.1 h with rfl | h
      · exact List.mem_cons_self _ _
      · apply List.mem_cons_of_mem
        cases hfind : rowById T q with
        | none => rw [hfind] at h; cases h
        | some r =>
          rw [hfind] at h
          exact ih (fuel + fuel'') r.parent_id p h (by omega)

/-! ## The terminal UPDATE -/

theorem applyRow_id (A : List Assign) (r : Row) :
    (applyRow A r).id = r.id := by
  unfold applyRow
  cases A.find? (fun a => a.id == r.id) <;> rfl

theorem applyRow_parent (A : List Assign) (r : Row) :
    (applyRow A r).parent_id = r.parent_id := by
  unfold applyRow
  cases A.find? (fun a => a.id == r.id) <;> rfl

theorem applyRow_sortval (A : List Assign) (r : Row) :
    (applyRow A r).sortval = r.sortval := by
  unfold applyRow
  cases A.find? (fun a => a.id == r.id) <;> rfl

theorem applyRow_user (A : List Assign) (r : Row) :
    (applyRow A r).user = r.user := by
  unfold applyRow
  cases A.find? (fun a => a.id == r.id) <;> rfl

theorem applyRow_of_none {A : List Assign} {r : Row}
    (h : A.find? (fun a => a.id == r.id) = none) : applyRow A r = r := by
  unfold applyRow
  rw [h]

theorem applyRow_of_some {A : List Assign} {r : Row} {a : Assign}
    (h : A.find? (fun a => a.id == r.id) = some a) :
    applyRow A r =
      { r with priority := a.pr, path := a.path, depth := a.depth } := by
  unfold applyRow
  rw [h]

theorem applyAssigns_length (T : Table) (A : List Assign) :
    (applyAssigns T A).length = T.length := by
  unfold applyAssigns
  exact List.length_map _ _

end TreeNode

namespace TreeNode

/-! ## Claim C3: cyclic moves -/

/-- C3: the claim states that reparenting a node under a node of its own
subtree fails with `CyclicMove` before any SQL and leaves the table
unchanged.  The version-3 `save()` contains no such check: saving root 1
with its parent changed to its own child 2 completes, shifts nothing,
enqueues two rebuild tasks, rewrites the row — and the resulting table has
a parent cycle (`chainOk` fails on node 1's chain). -/
theorem C3_cyclic_move_not_rejected :
    (saveV3 3 c3Table [] c3Inst 99).table =
      [⟨1, some 2, 0, "000", 0, 0, 0⟩, ⟨2, some 1, 0, "000.000", 1, 0, 0⟩] ∧
    (saveV3 3 c3Table [] c3Inst 99).queue =
      [⟨"update", none⟩, ⟨"update", some 2⟩] ∧
    chainOk (saveV3 3 c3Table [] c3Inst 99).table
      (saveV3 3 c3Table [] c3Inst 99).table.length (some 1) = false := by
  decide

/-! ## Claim C4: sibling overflow -/

/-- C4: the claim states that materializing a `BASE`-th extra sibling
fails with `SiblingOverflow` before any SQL.  No such check exists: with
`SEGMENT_LENGTH = 1` (`BASE = 16`) and a parent that already has 16
children, saving a 17th child completes; the children are shifted to
priorities `1..16` so one sibling now carries priority `16 = BASE`, which
no single hex digit can encode. -/
theorem C4_sibling_overflow_not_rejected :
    (childRows (saveV3 1 c4Table [] c4Inst 17).table (some 100)).length = 17 ∧
    ((childRows (saveV3 1 c4Table [] c4Inst 17).table (some 100)).map
      Row.priority).contains 16 = true := by
  decide

/-! ## Claim C10: the ancestor predicate -/

/-- C10: the claim states `a.is_ancestor_of(b)` is true iff `a` is a
proper ancestor of `b`.  The code tests `target.id in
target.query("ancestors", include_self=False)` and never consults `self`:
with root 1 and its child 2, `is_ancestor_of` answers `false` although 1
is a proper ancestor of 2. -/
theorem C10_is_ancestor_of_ignores_self :
    is_ancestor_of c10Table c10Root c10Child = false ∧
    properAncestorSpec c10Table c10Root c10Child := by
  decide

/-! ## Claim C2: coalescing (counterexample and amended claim) -/

/-- C2 counterexample: the claim states that when `a` is a root-level node
and `b` lies at depth 2 under a different root, the queue coalesces to
`{NULL}`.  In `ceTable`, node 1 is a root and node 4 sits at depth 2 under
the other root 2; their ancestor paths share no element, so
`_get_common_ancestor` returns `None`, no merge happens and `_optimize`
returns both tasks unchanged instead of `[{NULL}]`. -/
theorem C2_cross_root_counterexample :
    getAncestorPath ceTable 1 = [1] ∧
    getAncestorPath ceTable 4 = [2, 3, 4] ∧
    optimize ceTable [⟨"update", some 1⟩, ⟨"update", some 4⟩] =
      [⟨"update", some 1⟩, ⟨"update", some 4⟩] ∧
    ¬ optimize ceTable [⟨"update", some 1⟩, ⟨"update", some 4⟩] =
        [⟨"update", none⟩] := by
  decide


/-! ## Claim C8: priority change (counterexample) -/

/-- C8 counterexample: the claim states that on a pure priority change
`save()` shifts the later siblings forward by one.  Changing node 2's
priority from 0 to 1 (parent unchanged) rewrites only node 2's row and
enqueues a rebuild for its parent: sibling 3 keeps priority 1 instead of
being shifted to 2, because `_shift_siblings_forward` is called only when
`is_new or is_move` holds. -/
theorem C8_shift_skipped_counterexample :
    (saveV3 3 c8Table [] c8Inst 99).table =
      [⟨1, none, 0, "000", 0, 0, 0⟩, ⟨2, some 1, 1, "000.000", 1, 0, 0⟩,
       ⟨3, some 1, 1, "000.001", 1, 0, 0⟩] ∧
    rowById (saveV3 3 c8Table [] c8Inst 99).table 3 =
      some ⟨3, some 1, 1, "000.001", 1, 0, 0⟩ ∧
    ¬ rowById (saveV3 3 c8Table [] c8Inst 99).table 3 =
        some ⟨3, some 1, 2, "000.001", 1, 0, 0⟩ ∧
    (saveV3 3 c8Table [] c8Inst 99).queue = [⟨"update", some 1⟩] := by
  decide

/-! ## Claim C9: cache invalidation (counterexample) -/

/-- C9 counterexample: the claim states that `invalidate(L)` removes every
entry whose key was produced by `generate_cache_key` with label `L`.  The
key is `label + "_" + ...` but `set` indexes it under the text before the
FIRST underscore of the whole key: for the Django app label `my_app` the
entry is indexed under `"my_"`, so `invalidate("my_app.Item")` looks up
`"my_app.Item_"`, finds nothing and the entry survives — a subsequent
`get` is a hit, not a miss. -/
theorem C9_underscore_label_counterexample :
    keyPrefixOf c9Key = "my_" ∧
    cacheGet (cacheInvalidate c9State "my_app.Item") c9Key =
      some ⟨42, 10⟩ ∧
    ¬ cacheGet (cacheInvalidate c9State "my_app.Item") c9Key = none := by
  decide

/-! ## Claim C6: sort determinism (counterexample) -/

theorem sibOrder_ordA : SibOrder leS ordA := fun l =>
  ⟨perm_isortLe leS l, pairwise_isortLe leS leS_total leS_trans l⟩

theorem sibOrder_ordB : SibOrder leS ordB := fun l =>
  ⟨(perm_isortLe leS l.reverse).trans l.reverse_perm,
   pairwise_isortLe leS leS_total leS_trans l.reverse⟩

/-- C6 counterexample: the claim states that for every configured
`SORTING_FIELD` the ties are broken by ascending id, making the rebuild a
deterministic function of the table.  For a custom sorting field the
emitted ordering is `[sorting_field]` alone (no id tiebreaker), so two
admissible `ORDER BY` results — both sorted by the field — produce
different rebuilds of a table containing two roots tied on the field. -/
theorem C6_custom_sort_not_deterministic :
    sorting_fields "weight" = ["weight"] ∧
    SibOrder leS ordA ∧ SibOrder leS ordB ∧
    updatePathWith 3 ordA c6Table none ≠ updatePathWith 3 ordB c6Table none := by
  refine ⟨by decide, sibOrder_ordA, sibOrder_ordB, by decide⟩


/-! ## Claim C8 (amended): priority change enqueues but does not shift -/

/-- C8 (amended): for an existing node whose priority has been changed
with its parent unchanged, `save()` performs no sibling shift: the result
is the original table with only the node's own row replaced by the
instance's values, and exactly one rebuild task for the node's parent is
appended to the queue. -/
theorem C8_priority_change_no_shift (L : Nat) (T : Table) (Q : List Task)
    (inst : Inst) (nid : Nat) (r : Row)
    (hnd : NodupIds T) (hr : r ∈ T)
    (hpk : inst.pk = some r.id)
    (hpar : inst.parent_id = r.parent_id)
    (hpri : inst.priority ≠ some r.priority) :
    saveV3 L T Q inst nid =
      ⟨T.map (fun x => if x.id == r.id then rowOfInst r.id inst else x),
       Q ++ [⟨"update", inst.parent_id⟩]⟩ := by
  have hfind : getDbState T r.id = some (r.priority, r.parent_id) := by
    unfold getDbState
    rw [rowById_eq_self T hnd r hr]
    rfl
  have hmove : (inst.parent_id != r.parent_id) = false := by
    simp [hpar]
  have hshift : (inst.priority != some r.priority) = true := by
    simp [hpri]
  have hany : T.any (fun x => x.id == r.id) = true :=
    List.any_eq_true.2 ⟨r, hr, by simp⟩
  unfold saveV3
  simp only [hpk, hfind, hmove, hshift]
  simp [upsert, hany]

/-- C8 (amended) witness: the concrete priority-only save of
`c8Inst` on `c8Table`. -/
theorem C8_priority_change_no_shift_witness :
    NodupIds c8Table ∧
    (⟨3, some 1, 1, "000.001", 1, 0, 0⟩ : Row) ∈ c8Table ∧
    saveV3 3 c8Table [] c8Inst 99 =
      ⟨c8Table.map (fun x =>
        if x.id == 2 then rowOfInst 2 c8Inst else x),
       [] ++ [⟨"update", c8Inst.parent_id⟩]⟩ := by
  refine ⟨by decide, by decide, ?_⟩
  exact C8_priority_change_no_shift 3 c8Table [] c8Inst 99
    ⟨2, some 1, 0, "000.000", 1, 0, 0⟩ (by decide) (by decide) (by decide)
    (by decide) (by decide)


/-! ## Claim C9 (amended): invalidation for underscore-free labels -/

theorem mk_data (s : String) : String.mk s.data = s := by
  cases s
  rfl

theorem takeBeforeUnd_append (l₁ l₂ : List Char) (h : '_' ∉ l₁) :
    takeBeforeUnd (l₁ ++ '_' :: l₂) = l₁ := by
  induction l₁ with
  | nil => simp [takeBeforeUnd]
  | cons c cs ih =>
    have hc : c ≠ '_' := fun hc => h (hc ▸ List.mem_cons_self c cs)
    rw [List.cons_append, takeBeforeUnd, if_neg hc,
      ih (fun hm => h (List.mem_cons_of_mem c hm))]

theorem genKey_data (label fn uid extra : String) :
    (generate_cache_key label fn uid extra).data =
      label.data ++ '_' :: (fn.data ++ '_' :: (uid.data ++ '_' :: extra.data)) := by
  unfold generate_cache_key
  simp only [data_append]
  simp [List.append_assoc]

theorem keyPrefixOf_genKey (label fn uid extra : String)
    (h : '_' ∉ label.data) :
    keyPrefixOf (generate_cache_key label fn uid extra) = label ++ "_" := by
  unfold keyPrefixOf
  rw [genKey_data]
  have hmem : '_' ∈ label.data ++ '_' ::
      (fn.data ++ '_' :: (uid.data ++ '_' :: extra.data)) :=
    List.mem_append_right _ (List.mem_cons_self _ _)
  have hcond : (label.data ++ '_' ::
      (fn.data ++ '_' :: (uid.data ++ '_' :: extra.data))).contains '_' = true := by
    simp
  rw [if_pos hcond, takeBeforeUnd_append label.data _ h, mk_data]

theorem assocGet_some_mem {α : Type} {l : List (String × α)} {k : String}
    {v : α} (h : assocGet l k = some v) : (k, v) ∈ l := by
  unfold assocGet at h
  cases hf : l.find? (fun p => p.1 == k) with
  | none => rw [hf] at h; cases h
  | some p =>
    rw [hf] at h
    simp only [Option.map_some'] at h
    have hp := List.find?_some hf
    simp only [beq_iff_eq] at hp
    have hm := List.mem_of_find?_eq_some hf
    obtain ⟨a, b⟩ := p
    simp only at hp h
    have hb := Option.some.inj h
    rw [← hp, ← hb]
    exact hm

theorem assocGet_filter_none {α : Type} (l : List (String × α)) (k : String)
    (q : String × α → Bool) (h : assocGet l k = none) :
    assocGet (l.filter q) k = none := by
  unfold assocGet at *
  cases hf : (l.filter q).find? (fun p => p.1 == k) with
  | none => rfl
  | some p =>
    have hp := List.find?_some hf
    have hm := List.mem_of_mem_filter (List.mem_of_find?_eq_some hf)
    have hnone : l.find? (fun p => p.1 == k) = none := by
      cases hg : l.find? (fun p => p.1 == k) with
      | none => rfl
      | some p' => rw [hg] at h; cases h
    exact absurd hp (List.find?_eq_none.1 hnone p hm)

theorem assocGet_filter_dropped {α : Type} (l : List (String × α))
    (ks : List String) (k : String) (hk : k ∈ ks) :
    assocGet (l.filter (fun kv => !(ks.contains kv.1))) k = none := by
  unfold assocGet
  cases hf : (l.filter (fun kv => !(ks.contains kv.1))).find?
      (fun p => p.1 == k) with
  | none => rfl
  | some p =>
    have hp := List.find?_some hf
    simp only [beq_iff_eq] at hp
    have hm := List.mem_of_find?_eq_some hf
    have hq := List.of_mem_filter hm
    rw [hp] at hq
    simp only [Bool.not_eq_true'] at hq
    have : ¬ (k ∈ ks) := by simpa using hq
    exact absurd hk this

theorem cacheInvalidate_of_empty (s : CacheState) (pfx0 : String)
    (h : ((assocGet s.pfxIndex (pfx0 ++ "_")).getD []) = []) :
    cacheInvalidate s pfx0 = s := by
  simp only [cacheInvalidate]
  rw [h]
  simp

theorem cacheInvalidate_cache_of_ne (s : CacheState) (pfx0 : String)
    (ks : List String) (h : assocGet s.pfxIndex (pfx0 ++ "_") = some ks)
    (hne : ks ≠ []) :
    (cacheInvalidate s pfx0).cache =
      s.cache.filter (fun kv => !(ks.contains kv.1)) := by
  simp only [cacheInvalidate]
  rw [h]
  simp [hne]

/-- C9 (amended): for a model label that contains no underscore, every
entry whose key was produced by `generate_cache_key` with that label is
gone after `invalidate(label)`: a subsequent `get` of the key misses. -/
theorem C9_invalidate_drops_label (s : CacheState)
    (label fn uid extra : String) (hwf : CacheWF s)
    (hl : '_' ∉ label.data) :
    cacheGet (cacheInvalidate s label)
      (generate_cache_key label fn uid extra) = none := by
  have hpfx := keyPrefixOf_genKey label fn uid extra hl
  cases hc : assocGet s.cache (generate_cache_key label fn uid extra) with
  | none =>
    cases hidx : assocGet s.pfxIndex (label ++ "_") with
    | none =>
      unfold cacheGet
      rw [cacheInvalidate_of_empty s label (by rw [hidx]; rfl)]
      exact hc
    | some ks =>
      by_cases hks : ks = []
      · unfold cacheGet
        rw [cacheInvalidate_of_empty s label (by rw [hidx, hks]; rfl)]
        exact hc
      · unfold cacheGet
        rw [cacheInvalidate_cache_of_ne s label ks hidx hks]
        exact assocGet_filter_none _ _ _ hc
  | some v =>
    have hmem := assocGet_some_mem hc
    obtain ⟨ks, hks, hkmem⟩ := hwf _ hmem
    rw [hpfx] at hks
    have hne : ks ≠ [] := by
      intro h
      rw [h] at hkmem
      cases hkmem
    unfold cacheGet
    rw [cacheInvalidate_cache_of_ne s label ks hks hne]
    exact assocGet_filter_dropped _ _ _ hkmem

/-- C9 (amended) witness: one entry set under the underscore-free label
`"app.Item"` is removed by invalidating that label. -/
theorem C9_invalidate_drops_label_witness :
    CacheWF c9GoodState ∧ '_' ∉ ("app.Item" : String).data ∧
    cacheGet (cacheInvalidate c9GoodState "app.Item") c9GoodKey = none := by
  refine ⟨by decide, by decide, ?_⟩
  exact C9_invalidate_drops_label c9GoodState "app.Item" "get_x" "1" "h"
    (by decide) (by decide)


/-! ## Claim C2 (amended): pair coalescing through the common ancestor -/

theorem commonPre_self : ∀ l : List Nat, commonPre l l = l.getLast? := by
  intro l
  induction l with
  | nil => rfl
  | cons x xs ih =>
    rw [commonPre, if_pos rfl, ih]
    cases xs with
    | nil => rfl
    | cons y ys => simp [List.getLast?]

theorem ancSelf_nil {T : Table} {a : Nat} (h : rowById T a = none) :
    ∀ fuel, ancSelf T fuel a = [] := by
  intro fuel
  cases fuel with
  | zero => rfl
  | succ f => rw [ancSelf, h]

theorem getAncestorPath_nil {T : Table} {a : Nat} (h : rowById T a = none) :
    getAncestorPath T a = [] := by
  unfold getAncestorPath
  rw [ancSelf_nil h]
  rfl

theorem getAncestorPath_getLast {T : Table} {a : Nat} {r : Row}
    (h : rowById T a = some r) :
    (getAncestorPath T a).getLast? = some a := by
  have hmem : r ∈ T := (rowById_mem h).1
  have hpos : T ≠ [] := by
    intro h'
    rw [h'] at hmem
    cases hmem
  obtain ⟨m, hm⟩ : ∃ m, T.length = m + 1 := by
    cases hT : T.length with
    | zero => exact absurd (List.length_eq_zero.1 hT) hpos
    | succ m => exact ⟨m, rfl⟩
  unfold getAncestorPath
  rw [hm, List.getLast?_reverse, ancSelf, h]
  rfl

theorem commonAncestor_exists_row {T : Table} {a b c : Nat}
    (h : commonAncestor T a b = some c) : ∃ r, rowById T a = some r := by
  cases hf : rowById T a with
  | none =>
    unfold commonAncestor at h
    rw [getAncestorPath_nil hf] at h
    cases h
  | some r => exact ⟨r, rfl⟩

theorem commonAncestor_ne {T : Table} {a b c : Nat}
    (h : commonAncestor T a b = some c) (hne : c ≠ a) : a ≠ b := by
  rintro rfl
  obtain ⟨r, hr⟩ := commonAncestor_exists_row h
  unfold commonAncestor at h
  rw [commonPre_self, getAncestorPath_getLast hr] at h
  exact hne (Option.some.inj h).symm

/-- C2 (amended): a queue holding exactly the parent ids `a` and `b` whose
common ancestor `c` exists and differs from both coalesces to the single
task `{c}` when `c` is not a root, and to `{NULL}` when `c` is a root.
(When the two ids lie under different roots no common ancestor exists and
the queue is left as it is — see the counterexample.) -/
theorem C2_pair_coalesce (T : Table) (a b c : Nat)
    (hca : commonAncestor T a b = some c) (hne1 : c ≠ a) (hne2 : c ≠ b) :
    optimize T [⟨"update", some a⟩, ⟨"update", some b⟩] =
      if c ∈ rootIds T then [⟨"update", none⟩]
      else [⟨"update", some c⟩] := by
  have hab : a ≠ b := commonAncestor_ne hca hne1
  have hdedup : dedupN [a, b] = [a, b] := by
    have hba : b ≠ a := Ne.symm hab
    simp [dedupN, hba]
  have hloop : optimizeLoop T 2 [a, b] [a, b] [] =
      if c ∈ rootIds T then none else some [c] := by
    by_cases hroot : c ∈ rootIds T
    · rw [if_pos hroot]
      simp only [optimizeLoop, findMerge, hca]
      rw [if_pos hroot]
    · rw [if_neg hroot]
      have hcnot : c ∉ ([a, b] : List Nat) := by
        simp [hne1, hne2]
      simp only [optimizeLoop, findMerge, hca]
      rw [if_neg hroot, if_neg hcnot]
      simp [List.erase_cons, optimizeLoop, findMerge]
  simp only [optimize]
  rw [if_neg (by simp)]
  have hfm : (([⟨"update", some a⟩, ⟨"update", some b⟩] : List Task).filterMap
      (fun t => if t.mode == "update" then t.parent_id else none)) = [a, b] := by
    simp [List.filterMap]
  simp only [hfm, hdedup, List.length_cons, List.length_singleton,
    List.length_nil]
  rw [hloop]
  by_cases hroot : c ∈ rootIds T
  · rw [if_pos hroot, if_pos hroot]
  · rw [if_neg hroot, if_neg hroot]
    simp [isortN, insertN]

/-- C2 (amended) witness: in `sibTable` the sibling leaves 3 and 4 share
the non-root parent 2, and the queue `{3, 4}` coalesces to `{2}`. -/
theorem C2_pair_coalesce_witness :
    commonAncestor sibTable 3 4 = some 2 ∧ (2 : Nat) ≠ 3 ∧ (2 : Nat) ≠ 4 ∧
    optimize sibTable [⟨"update", some 3⟩, ⟨"update", some 4⟩] =
      (if (2 : Nat) ∈ rootIds sibTable then [⟨"update", none⟩]
       else [⟨"update", some 2⟩]) := by
  refine ⟨by decide, by decide, by decide, ?_⟩
  exact C2_pair_coalesce sibTable 3 4 2 (by decide) (by decide) (by decide)


/-! ## Sibling groups -/

theorem mem_childRows {T : Table} {pid : Option Nat} {r : Row} :
    r ∈ childRows T pid ↔ r ∈ T ∧ r.parent_id = pid := by
  unfold childRows
  rw [List.mem_filter]
  simp

theorem childRows_sublist (T : Table) (pid : Option Nat) :
    (childRows T pid).Sublist T :=
  List.filter_sublist T

theorem nodupIds_childRows {T : Table} (hnd : NodupIds T)
    (pid : Option Nat) : ((childRows T pid).map Row.id).Nodup :=
  ((childRows_sublist T pid).map Row.id).nodup hnd

theorem mem_id_unique {T : Table} (hnd : NodupIds T) {r₁ r₂ : Row}
    (h₁ : r₁ ∈ T) (h₂ : r₂ ∈ T) (hid : r₁.id = r₂.id) : r₁ = r₂ := by
  have f₁ := rowById_eq_self T hnd r₁ h₁
  have f₂ := rowById_eq_self T hnd r₂ h₂
  rw [hid] at f₁
  rw [f₁] at f₂
  exact Option.some.inj f₂

theorem nodup_id_unique {g : List Row} (hg : (g.map Row.id).Nodup)
    {r₁ r₂ : Row} (h₁ : r₁ ∈ g) (h₂ : r₂ ∈ g) (hid : r₁.id = r₂.id) :
    r₁ = r₂ := by
  have f₁ := find_key_eq Row.id g hg r₁ h₁
  have f₂ := find_key_eq Row.id g hg r₂ h₂
  rw [hid] at f₁
  rw [f₁] at f₂
  exact Option.some.inj f₂

/-! ## Claim C6 (amended): determinism of the default sort -/

/-- Any two admissible `ORDER BY priority, id` enumerations agree on a
group with distinct ids: the sorted permutation is unique because the
priority-then-id key is antisymmetric there. -/
theorem ord_eq_on_group {ord₁ ord₂ : List Row → List Row}
    (h₁ : SibOrder lePr ord₁) (h₂ : SibOrder lePr ord₂)
    (g : List Row) (hg : (g.map Row.id).Nodup) : ord₁ g = ord₂ g := by
  obtain ⟨hp₁, hs₁⟩ := h₁ g
  obtain ⟨hp₂, hs₂⟩ := h₂ g
  refine eq_of_perm_of_pairwise lePr (ord₁ g) (ord₂ g)
    (hp₁.trans hp₂.symm) hs₁ hs₂ ?_
  intro a ha b hb hab hba
  obtain ⟨hpri, hid⟩ := lePr_antisymm_of_ids hab hba
  exact nodup_id_unique hg (hp₁.mem_iff.1 ha) (hp₁.mem_iff.1 hb) hid

theorem cte_congr {L : Nat} {ord₁ ord₂ : List Row → List Row} {T : Table}
    (hgr : ∀ pid : Option Nat, ord₁ (childRows T pid) = ord₂ (childRows T pid))
    (pid : Option Nat) :
    cteAssigns L ord₁ T pid = cteAssigns L ord₂ T pid := by
  have hca : ∀ pp pd p, childAssigns L ord₁ T pp pd p =
      childAssigns L ord₂ T pp pd p := by
    intro pp pd p
    unfold childAssigns
    rw [hgr (some p)]
  have hanchor : anchorAssigns L ord₁ T pid = anchorAssigns L ord₂ T pid := by
    cases pid with
    | none =>
      simp only [anchorAssigns]
      rw [hgr none]
    | some p =>
      simp only [anchorAssigns]
      cases rowById T p with
      | none => rfl
      | some prow => exact hca prow.path prow.depth p
  have hlev : ∀ k, levels L ord₁ T (anchorAssigns L ord₁ T pid) k =
      levels L ord₂ T (anchorAssigns L ord₂ T pid) k := by
    intro k
    induction k with
    | zero => exact hanchor
    | succ k ih =>
      show (levels L ord₁ T _ k).flatMap _ = (levels L ord₂ T _ k).flatMap _
      rw [ih]
      exact List.flatMap_congr (fun s _ => hca s.path s.depth s.id)
  unfold cteAssigns
  exact List.flatMap_congr (fun k _ => hlev k)

/-- C6 (amended): with the default `SORTING_FIELD = priority` the emitted
`ORDER BY priority, id` is a total order on rows with distinct ids, so any
two admissible database enumerations produce the same rebuild: the
assignment of `(priority, _path, _depth)` is a deterministic function of
the table contents. -/
theorem C6_default_sort_deterministic (L : Nat) (T : Table)
    (pid : Option Nat) (ord₁ ord₂ : List Row → List Row)
    (h₁ : SibOrder lePr ord₁) (h₂ : SibOrder lePr ord₂)
    (hnd : NodupIds T) :
    updatePathWith L ord₁ T pid = updatePathWith L ord₂ T pid := by
  have hgr : ∀ pid' : Option Nat,
      ord₁ (childRows T pid') = ord₂ (childRows T pid') := fun pid' =>
    ord_eq_on_group h₁ h₂ _ (nodupIds_childRows hnd pid')
  unfold updatePathWith
  rw [cte_congr hgr pid]

/-- C6 (amended) witness: the two concrete admissible orderings of the
counterexample agree once the comparison is the default one. -/
theorem C6_default_sort_deterministic_witness :
    NodupIds c6Table ∧
    updatePathWith 3 sortRows c6Table none =
      updatePathWith 3 (fun l => isortLe lePr l.reverse) c6Table none := by
  refine ⟨by decide, ?_⟩
  exact C6_default_sort_deterministic 3 c6Table none sortRows
    (fun l => isortLe lePr l.reverse)
    (fun l => ⟨perm_isortLe lePr l, pairwise_isortLe lePr lePr_total lePr_trans l⟩)
    (fun l => ⟨(perm_isortLe lePr l.reverse).trans l.reverse_perm,
      pairwise_isortLe lePr lePr_total lePr_trans l.reverse⟩)
    (by decide)


/-! ## Structure of the CTE levels -/

theorem mem_childAssigns_elim {L : Nat} {ord : List Row → List Row}
    {T : Table} {pp : String} {pd p : Nat} {a : Assign}
    (hord : ∀ l, (ord l).Perm l)
    (h : a ∈ childAssigns L ord T pp pd p) :
    ∃ r ∈ T, r.id = a.id ∧ r.parent_id = some p ∧
      a.path = pp ++ "." ++ seg L a.pr ∧ a.depth = pd + 1 ∧
      a.pr < (childRows T (some p)).length := by
  unfold childAssigns at h
  rw [List.mem_map] at h
  obtain ⟨ir, hir, rfl⟩ := h
  have hfst := mem_numberFrom_fst 0 _ ir hir
  have hmem : ir.2 ∈ childRows T (some p) := (hord _).mem_iff.1 hfst.2.2
  have hrow := mem_childRows.1 hmem
  refine ⟨ir.2, hrow.1, rfl, hrow.2, rfl, rfl, ?_⟩
  have hlen := (hord (childRows T (some p))).length_eq
  show ir.1 < (childRows T (some p)).length
  omega

theorem mem_childAssigns_intro {L : Nat} {ord : List Row → List Row}
    {T : Table} (pp : String) (pd : Nat) {p : Nat} {r : Row}
    (hord : ∀ l, (ord l).Perm l)
    (hr : r ∈ T) (hpar : r.parent_id = some p) :
    ∃ a ∈ childAssigns L ord T pp pd p, a.id = r.id := by
  have hmem : r ∈ ord (childRows T (some p)) :=
    (hord _).mem_iff.2 (mem_childRows.2 ⟨hr, hpar⟩)
  obtain ⟨k, hk, hnum⟩ := mem_numberFrom_of_mem 0 _ r hmem
  refine ⟨⟨r.id, 0 + k, pp ++ "." ++ seg L (0 + k), pd + 1⟩, ?_, rfl⟩
  unfold childAssigns
  rw [List.mem_map]
  exact ⟨(0 + k, r), hnum, rfl⟩

theorem childAssigns_map_id (L : Nat) (ord : List Row → List Row)
    (T : Table) (pp : String) (pd p : Nat) :
    (childAssigns L ord T pp pd p).map Assign.id =
      (ord (childRows T (some p))).map Row.id := by
  unfold childAssigns
  rw [List.map_map]
  have hfun : (Assign.id ∘ fun ir : Nat × Row =>
      (⟨ir.2.id, ir.1, pp ++ "." ++ seg L ir.1, pd + 1⟩ : Assign)) =
      (Row.id ∘ Prod.snd) := rfl
  rw [hfun, ← List.map_map, numberFrom_map_snd]

theorem nodupIds_childAssigns {L : Nat} {ord : List Row → List Row}
    {T : Table} (pp : String) (pd p : Nat)
    (hord : ∀ l, (ord l).Perm l) (hnd : NodupIds T) :
    ((childAssigns L ord T pp pd p).map Assign.id).Nodup := by
  rw [childAssigns_map_id]
  exact ((hord _).map Row.id).nodup_iff.2 (nodupIds_childRows hnd (some p))

theorem mem_anchorNone_elim {L : Nat} {ord : List Row → List Row}
    {T : Table} {a : Assign} (hord : ∀ l, (ord l).Perm l)
    (h : a ∈ anchorAssigns L ord T none) :
    ∃ r ∈ T, r.id = a.id ∧ r.parent_id = none ∧
      a.path = seg L a.pr ∧ a.depth = 0 ∧
      a.pr < (childRows T none).length := by
  unfold anchorAssigns at h
  rw [List.mem_map] at h
  obtain ⟨ir, hir, rfl⟩ := h
  have hfst := mem_numberFrom_fst 0 _ ir hir
  have hmem : ir.2 ∈ childRows T none := (hord _).mem_iff.1 hfst.2.2
  have hrow := mem_childRows.1 hmem
  refine ⟨ir.2, hrow.1, rfl, hrow.2, rfl, rfl, ?_⟩
  have hlen := (hord (childRows T none)).length_eq
  show ir.1 < (childRows T none).length
  omega

theorem mem_anchorNone_intro {L : Nat} {ord : List Row → List Row}
    {T : Table} {r : Row} (hord : ∀ l, (ord l).Perm l)
    (hr : r ∈ T) (hpar : r.parent_id = none) :
    ∃ a ∈ anchorAssigns L ord T none, a.id = r.id := by
  have hmem : r ∈ ord (childRows T none) :=
    (hord _).mem_iff.2 (mem_childRows.2 ⟨hr, hpar⟩)
  obtain ⟨k, hk, hnum⟩ := mem_numberFrom_of_mem 0 _ r hmem
  refine ⟨⟨r.id, 0 + k, seg L (0 + k), 0⟩, ?_, rfl⟩
  unfold anchorAssigns
  rw [List.mem_map]
  exact ⟨(0 + k, r), hnum, rfl⟩

theorem anchorNone_map_id (L : Nat) (ord : List Row → List Row) (T : Table) :
    (anchorAssigns L ord T none).map Assign.id =
      (ord (childRows T none)).map Row.id := by
  unfold anchorAssigns
  rw [List.map_map]
  have hfun : (Assign.id ∘ fun ir : Nat × Row =>
      (⟨ir.2.id, ir.1, seg L ir.1, 0⟩ : Assign)) = (Row.id ∘ Prod.snd) := rfl
  rw [hfun, ← List.map_map, numberFrom_map_snd]

theorem nodupIds_anchorNone {L : Nat} {ord : List Row → List Row}
    {T : Table} (hord : ∀ l, (ord l).Perm l) (hnd : NodupIds T) :
    ((anchorAssigns L ord T none).map Assign.id).Nodup := by
  rw [anchorNone_map_id]
  exact ((hord _).map Row.id).nodup_iff.2 (nodupIds_childRows hnd none)

theorem levels_succ_elim {L : Nat} {ord : List Row → List Row} {T : Table}
    {anchor : List Assign} {k : Nat} {a : Assign}
    (h : a ∈ levels L ord T anchor (k + 1)) :
    ∃ s ∈ levels L ord T anchor k,
      a ∈ childAssigns L ord T s.path s.depth s.id := by
  rw [levels, List.mem_flatMap] at h
  exact h

theorem levels_succ_intro {L : Nat} {ord : List Row → List Row} {T : Table}
    {anchor : List Assign} {k : Nat} {s a : Assign}
    (hs : s ∈ levels L ord T anchor k)
    (ha : a ∈ childAssigns L ord T s.path s.depth s.id) :
    a ∈ levels L ord T anchor (k + 1) := by
  rw [levels, List.mem_flatMap]
  exact ⟨s, hs, ha⟩

theorem mem_childAssigns_id {L : Nat} {ord : List Row → List Row}
    {T : Table} {pp : String} {pd p : Nat} {x : Nat}
    (h : x ∈ (childAssigns L ord T pp pd p).map Assign.id)
    (hord : ∀ l, (ord l).Perm l) :
    ∃ r ∈ T, r.id = x ∧ r.parent_id = some p := by
  rw [List.mem_map] at h
  obtain ⟨a, ha, rfl⟩ := h
  obtain ⟨r, hr, hid, hpar, _⟩ := mem_childAssigns_elim hord ha
  exact ⟨r, hr, hid, hpar⟩

theorem nodupIds_flatMap_seeds (L : Nat) (ord : List Row → List Row)
    (T : Table) (hord : ∀ l, (ord l).Perm l) (hnd : NodupIds T) :
    ∀ seeds : List Assign, (seeds.map Assign.id).Nodup →
      ((seeds.flatMap
        (fun s => childAssigns L ord T s.path s.depth s.id)).map
          Assign.id).Nodup := by
  intro seeds
  induction seeds with
  | nil => intro _; simp
  | cons s ss ih =>
    intro hnds
    rw [List.map_cons, List.nodup_cons] at hnds
    rw [List.flatMap_cons, List.map_append, List.nodup_append]
    refine ⟨nodupIds_childAssigns s.path s.depth s.id hord hnd, ih hnds.2, ?_⟩
    intro x hx hx'
    obtain ⟨r₁, hr₁, hid₁, hpar₁⟩ := mem_childAssigns_id hx hord
    rw [List.mem_map] at hx'
    obtain ⟨a₂, ha₂, rfl⟩ := hx'
    rw [List.mem_flatMap] at ha₂
    obtain ⟨s₂, hs₂, hca₂⟩ := ha₂
    obtain ⟨r₂, hr₂, hid₂, hpar₂, _⟩ := mem_childAssigns_elim hord hca₂
    have hreq : r₁ = r₂ := mem_id_unique hnd hr₁ hr₂ (by rw [hid₁, hid₂])
    have : s.id = s₂.id := by
      have := hpar₁
      rw [hreq, hpar₂] at this
      exact Option.some.inj this.symm
    exact hnds.1 (this ▸ List.mem_map_of_mem Assign.id hs₂)

/-- The rank-and-uniqueness invariant of the CTE levels: every level-`k`
assignment corresponds to a table row at chain distance `base + k`, its
id satisfies the subtree predicate, and the level's ids are pairwise
distinct. -/
theorem levels_master (L : Nat) (ord : List Row → List Row) (T : Table)
    (hord : ∀ l, (ord l).Perm l) (hnd : NodupIds T)
    (anchor : List Assign) (base : Nat) (sub : Nat → Prop)
    (hstep : ∀ r q : Row, r ∈ T → q ∈ T → r.parent_id = some q.id →
      sub q.id → sub r.id)
    (h0 : ∀ a ∈ anchor,
      ∃ r ∈ T, r.id = a.id ∧ HasRank T r.parent_id base ∧ sub r.id)
    (h0nd : (anchor.map Assign.id).Nodup) :
    ∀ k, (∀ a ∈ levels L ord T anchor k,
        ∃ r ∈ T, r.id = a.id ∧ HasRank T r.parent_id (base + k) ∧ sub r.id) ∧
      ((levels L ord T anchor k).map Assign.id).Nodup := by
  intro k
  induction k with
  | zero => exact ⟨fun a ha => h0 a ha, h0nd⟩
  | succ k ih =>
    obtain ⟨ihm, ihnd⟩ := ih
    constructor
    · intro a ha
      obtain ⟨s, hs, hca⟩ := levels_succ_elim ha
      obtain ⟨q, hq, hqid, hqrank, hqsub⟩ := ihm s hs
      obtain ⟨r, hr, hrid, hrpar, _, _, _⟩ := mem_childAssigns_elim hord hca
      have hfind : rowById T q.id = some q := rowById_eq_self T hnd q hq
      have hpar' : r.parent_id = some q.id := by rw [hrpar, hqid]
      have hrank : HasRank T r.parent_id (base + k + 1) := by
        rw [hpar']
        exact (hasRank_parent hfind (base + k)).2 hqrank
      exact ⟨r, hr, hrid, hrank, hstep r q hr hq hpar' hqsub⟩
    · exact nodupIds_flatMap_seeds L ord T hord hnd _ ihnd

theorem nodupIds_flatMap_range (m : Nat) (g : Nat → List Assign)
    (heach : ∀ k, ((g k).map Assign.id).Nodup)
    (hinj : ∀ k₁ k₂ a₁ a₂, a₁ ∈ g k₁ → a₂ ∈ g k₂ → a₁.id = a₂.id →
      k₁ = k₂) :
    (((List.range m).flatMap g).map Assign.id).Nodup := by
  induction m with
  | zero => simp
  | succ m ih =>
    rw [List.range_succ, List.flatMap_append, List.map_append,
      List.nodup_append]
    refine ⟨ih, by simpa using heach m, ?_⟩
    intro x hx hx'
    rw [List.mem_map] at hx
    obtain ⟨a₁, ha₁, rfl⟩ := hx
    rw [List.mem_flatMap] at ha₁
    obtain ⟨k₁, hk₁, ha₁⟩ := ha₁
    simp only [List.flatMap_cons, List.flatMap_nil, List.append_nil] at hx'
    rw [List.mem_map] at hx'
    obtain ⟨a₂, ha₂, hid⟩ := hx'
    have := hinj k₁ m a₁ a₂ ha₁ ha₂ hid.symm
    rw [List.mem_range] at hk₁
    omega


/-! ## Completeness and uniqueness of the CTE assignment -/

theorem hasRank_some_elim {T : Table} {p k : Nat}
    (h : HasRank T (some p) (k + 1)) :
    ∃ q, rowById T p = some q ∧ HasRank T q.parent_id k := by
  obtain ⟨f, hf⟩ := h
  cases f with
  | zero => simp [clen] at hf
  | succ f =>
    rw [clen] at hf
    cases hfind : rowById T p with
    | none => simp only [hfind] at hf; exact absurd hf (by simp)
    | some q =>
      simp only [hfind, Option.map_eq_some'] at hf
      obtain ⟨k', hk', hkk⟩ := hf
      have hke : k' = k := by omega
      exact ⟨q, rfl, ⟨f, hke ▸ hk'⟩⟩

theorem levels_mem_cte {L : Nat} {ord : List Row → List Row} {T : Table}
    {pid : Option Nat} {k : Nat} (hk : k < T.length + 1) {a : Assign}
    (h : a ∈ levels L ord T (anchorAssigns L ord T pid) k) :
    a ∈ cteAssigns L ord T pid := by
  unfold cteAssigns
  rw [List.mem_flatMap]
  exact ⟨k, List.mem_range.2 hk, h⟩

theorem cte_mem_levels {L : Nat} {ord : List Row → List Row} {T : Table}
    {pid : Option Nat} {a : Assign} (h : a ∈ cteAssigns L ord T pid) :
    ∃ k, k < T.length + 1 ∧
      a ∈ levels L ord T (anchorAssigns L ord T pid) k := by
  unfold cteAssigns at h
  rw [List.mem_flatMap] at h
  obtain ⟨k, hk, ha⟩ := h
  exact ⟨k, List.mem_range.1 hk, ha⟩

theorem levels_complete_none (L : Nat) (ord : List Row → List Row)
    (T : Table) (hord : ∀ l, (ord l).Perm l) (hnd : NodupIds T) :
    ∀ k, ∀ r : Row, r ∈ T → HasRank T r.parent_id k →
      ∃ a ∈ levels L ord T (anchorAssigns L ord T none) k, a.id = r.id := by
  intro k
  induction k with
  | zero =>
    intro r hr hrank
    cases hpar : r.parent_id with
    | none => exact mem_anchorNone_intro hord hr hpar
    | some p =>
      rw [hpar] at hrank
      exact absurd (hasRank_some_pos hrank) (by omega)
  | succ k ih =>
    intro r hr hrank
    cases hpar : r.parent_id with
    | none =>
      rw [hpar] at hrank
      have := (hasRank_none_iff T (k + 1)).1 hrank
      omega
    | some p =>
      rw [hpar] at hrank
      obtain ⟨q, hfind, hqrank⟩ := hasRank_some_elim hrank
      have hq := rowById_mem hfind
      obtain ⟨s, hs, hsid⟩ := ih q hq.1 hqrank
      have hpar' : r.parent_id = some s.id := by
        rw [hpar, hsid, hq.2]
      obtain ⟨a, ha, haid⟩ :=
        mem_childAssigns_intro s.path s.depth hord hr hpar'
      exact ⟨a, levels_succ_intro hs ha, haid⟩

theorem cte_find_eq {L : Nat} {ord : List Row → List Row} {T : Table}
    {pid : Option Nat}
    (hndA : ((cteAssigns L ord T pid).map Assign.id).Nodup)
    {a : Assign} (ha : a ∈ cteAssigns L ord T pid) {i : Nat}
    (hid : a.id = i) :
    (cteAssigns L ord T pid).find? (fun x => x.id == i) = some a := by
  have h := find_key_eq Assign.id _ hndA a ha
  rw [hid] at h
  exact h

theorem master_none (L : Nat) (ord : List Row → List Row) (T : Table)
    (hord : ∀ l, (ord l).Perm l) (hnd : NodupIds T) :
    ∀ k, (∀ a ∈ levels L ord T (anchorAssigns L ord T none) k,
        ∃ r ∈ T, r.id = a.id ∧ HasRank T r.parent_id k) ∧
      ((levels L ord T (anchorAssigns L ord T none) k).map Assign.id).Nodup := by
  intro k
  have h := levels_master L ord T hord hnd (anchorAssigns L ord T none) 0
    (fun _ => True) (fun _ _ _ _ _ _ => trivial)
    (fun a ha => by
      obtain ⟨r, hr, hid, hpar, _⟩ := mem_anchorNone_elim hord ha
      exact ⟨r, hr, hid, by rw [hpar]; exact (hasRank_none_iff T 0).2 rfl,
        trivial⟩)
    (nodupIds_anchorNone hord hnd) k
  refine ⟨fun a ha => ?_, h.2⟩
  obtain ⟨r, hr, hid, hrank, _⟩ := h.1 a ha
  exact ⟨r, hr, hid, by simpa using hrank⟩

theorem nodupIds_cte_none (L : Nat) (ord : List Row → List Row) (T : Table)
    (hord : ∀ l, (ord l).Perm l) (hnd : NodupIds T) :
    ((cteAssigns L ord T none).map Assign.id).Nodup := by
  unfold cteAssigns
  apply nodupIds_flatMap_range
  · intro k
    exact (master_none L ord T hord hnd k).2
  · intro k₁ k₂ a₁ a₂ h₁ h₂ hid
    obtain ⟨r₁, hr₁, hid₁, hrank₁⟩ := (master_none L ord T hord hnd k₁).1 a₁ h₁
    obtain ⟨r₂, hr₂, hid₂, hrank₂⟩ := (master_none L ord T hord hnd k₂).1 a₂ h₂
    have hre : r₁ = r₂ := mem_id_unique hnd hr₁ hr₂ (by rw [hid₁, hid₂, hid])
    rw [hre] at hrank₁
    exact hasRank_unique hrank₁ hrank₂

theorem levels_dots (L : Nat) (ord : List Row → List Row) (T : Table)
    (hord : ∀ l, (ord l).Perm l) :
    ∀ k, ∀ a ∈ levels L ord T (anchorAssigns L ord T none) k,
      countDots a.path = a.depth := by
  intro k
  induction k with
  | zero =>
    intro a ha
    obtain ⟨r, _, _, _, hpath, hdepth, _⟩ := mem_anchorNone_elim hord ha
    rw [hpath, hdepth, countDots_seg]
  | succ k ih =>
    intro a ha
    obtain ⟨s, hs, hca⟩ := levels_succ_elim ha
    obtain ⟨r, _, _, _, hpath, hdepth, _⟩ := mem_childAssigns_elim hord hca
    rw [hpath, hdepth, countDots_dot_seg, ih s hs]

/-! ## Priorities written by the terminal UPDATE -/

theorem applied_priorities (A : List Assign) :
    ∀ (sg : List Row) (i0 : Nat),
      (∀ p ∈ numberFrom i0 sg,
        ∃ a, A.find? (fun x => x.id == p.2.id) = some a ∧ a.pr = p.1) →
      sg.map (fun r => (applyRow A r).priority) =
        (numberFrom i0 sg).map Prod.fst := by
  intro sg
  induction sg with
  | nil => intro i0 _; rfl
  | cons r rs ih =>
    intro i0 h
    obtain ⟨a, hfind, hpr⟩ := h (i0, r) (by simp [numberFrom])
    show ((applyRow A r).priority) ::
        rs.map (fun r => (applyRow A r).priority) =
      i0 :: (numberFrom (i0 + 1) rs).map Prod.fst
    rw [applyRow_of_some hfind]
    show a.pr :: rs.map (fun r => (applyRow A r).priority) =
      i0 :: (numberFrom (i0 + 1) rs).map Prod.fst
    rw [ih (i0 + 1) (fun p hp => h p (by
      simp only [numberFrom, List.mem_cons]
      exact Or.inr hp))]
    rw [show a.pr = i0 from hpr]

theorem filter_map_comm (f : Row → Row) (p : Row → Bool)
    (h : ∀ r, p (f r) = p r) :
    ∀ l : List Row, (l.map f).filter p = (l.filter p).map f := by
  intro l
  induction l with
  | nil => rfl
  | cons x xs ih =>
    simp only [List.map_cons, List.filter_cons]
    rw [h x]
    cases p x <;> simp [ih]

theorem childRows_applyAssigns (T : Table) (A : List Assign)
    (pid : Option Nat) :
    childRows (applyAssigns T A) pid = (childRows T pid).map (applyRow A) := by
  unfold childRows applyAssigns
  exact filter_map_comm (applyRow A) (fun r => r.parent_id == pid)
    (fun r => by
      show ((applyRow A r).parent_id == pid) = (r.parent_id == pid)
      rw [applyRow_parent]) T


/-! ## Claim C1: the structural invariants after a full rebuild -/

theorem updatePath_row_none (L : Nat) (ord : List Row → List Row) (T : Table)
    (hord : ∀ l, (ord l).Perm l) (hwf : WF T) (r : Row) (hr : r ∈ T) :
    ∃ k a, k < T.length + 1 ∧
      a ∈ levels L ord T (anchorAssigns L ord T none) k ∧ a.id = r.id ∧
      HasRank T r.parent_id k ∧
      applyRow (cteAssigns L ord T none) r =
        { r with priority := a.pr, path := a.path, depth := a.depth } := by
  obtain ⟨k, hrank, hk⟩ := wf_rank hwf hr
  obtain ⟨a, ha, haid⟩ := levels_complete_none L ord T hord hwf.1 k r hr hrank
  have hk' : k < T.length + 1 := by omega
  have hfind := cte_find_eq (nodupIds_cte_none L ord T hord hwf.1)
    (levels_mem_cte hk' ha) haid
  exact ⟨k, a, hk', ha, haid, hrank, applyRow_of_some hfind⟩

/-- C1: after the compiler's full rebuild (`update_path` with
`parent_id = NULL`) on a well-formed table whose sibling groups have at
most `BASE = 16 ^ L` rows: every row's `_depth` equals the number of dots
of its `_path`; every row with a parent `p` has
`_path = p._path ++ "." ++ priority` rendered as `L` zero-padded uppercase
hex digits; and the priorities of every sibling group are a permutation of
`{0, …, n-1}`. -/
theorem C1_full_rebuild_invariants (L : Nat) (T : Table)
    (hL : 0 < L) (hwf : WF T)
    (hbound : ∀ r ∈ T, (childRows T r.parent_id).length ≤ 16 ^ L) :
    (∀ r' ∈ updatePath L T none, r'.depth = countDots r'.path) ∧
    (∀ r' ∈ updatePath L T none, ∀ p, r'.parent_id = some p →
      ∃ q ∈ updatePath L T none, q.id = p ∧
        r'.path = q.path ++ "." ++ lpadZ L (hexU r'.priority) ∧
        (hexU r'.priority).length ≤ L) ∧
    (∀ pid : Option Nat,
      ((childRows (updatePath L T none) pid).map Row.priority).Perm
        (List.range (childRows (updatePath L T none) pid).length)) := by
  have hord : ∀ l, (sortRows l).Perm l := perm_isortLe lePr
  have hndA := nodupIds_cte_none L sortRows T hord hwf.1
  have hres : updatePath L T none =
      T.map (applyRow (cteAssigns L sortRows T none)) := rfl
  refine ⟨?_, ?_, ?_⟩
  · -- depth = dot count
    intro r' hr'
    rw [hres, List.mem_map] at hr'
    obtain ⟨r, hr, rfl⟩ := hr'
    obtain ⟨k, a, hk, ha, haid, hrank, happ⟩ :=
      updatePath_row_none L sortRows T hord hwf r hr
    rw [happ]
    show a.depth = countDots a.path
    exact (levels_dots L sortRows T hord k a ha).symm
  · -- the path of a child extends the parent's path
    intro r' hr' p hp
    rw [hres, List.mem_map] at hr'
    obtain ⟨r, hr, rfl⟩ := hr'
    obtain ⟨k, a, hk, ha, haid, hrank, happ⟩ :=
      updatePath_row_none L sortRows T hord hwf r hr
    have hpar : r.parent_id = some p := by
      rw [← applyRow_parent (cteAssigns L sortRows T none) r]
      exact hp
    have hkpos : 0 < k := hasRank_some_pos (hpar ▸ hrank)
    obtain ⟨k', rfl⟩ : ∃ k', k = k' + 1 := ⟨k - 1, by omega⟩
    obtain ⟨s, hs, hca⟩ := levels_succ_elim ha
    obtain ⟨r₀, hr₀, hr₀id, hr₀par, hpath, hdepth, hprb⟩ :=
      mem_childAssigns_elim hord hca
    have hr₀eq : r₀ = r := mem_id_unique hwf.1 hr₀ hr (by rw [hr₀id, haid])
    have hps : p = s.id := by
      rw [hr₀eq, hpar] at hr₀par
      exact Option.some.inj hr₀par
    obtain ⟨q, hq, hqid, hqrank⟩ :=
      (master_none L sortRows T hord hwf.1 k').1 s hs
    have hsA : s ∈ cteAssigns L sortRows T none :=
      levels_mem_cte (by omega) hs
    have hqfind := cte_find_eq hndA hsA hqid.symm
    have hprlt : a.pr < 16 ^ L := by
      have hb := hbound r hr
      rw [hpar, hps] at hb
      omega
    have hlen : (hexU a.pr).length ≤ L := hexU_len L a.pr hL hprlt
    refine ⟨applyRow (cteAssigns L sortRows T none) q, ?_, ?_, ?_, ?_⟩
    · rw [hres]
      exact List.mem_map_of_mem _ hq
    · rw [applyRow_id, hqid, ← hps]
    · rw [happ, applyRow_of_some hqfind]
      show a.path = s.path ++ "." ++ lpadZ L (hexU a.pr)
      rw [hpath, seg_eq_lpadZ hlen]
    · rw [happ]
      exact hlen
  · -- dense priorities per sibling group
    intro pid
    have hgroups : childRows (updatePath L T none) pid =
        (childRows T pid).map (applyRow (cteAssigns L sortRows T none)) :=
      childRows_applyAssigns T _ pid
    rw [hgroups, List.length_map]
    by_cases hgnil : childRows T pid = []
    · rw [hgnil]
      simp
    · obtain ⟨r₀, hr₀⟩ := List.exists_mem_of_ne_nil _ hgnil
      obtain ⟨hr₀T, hr₀par⟩ := mem_childRows.1 hr₀
      have hcond : ∀ pr ∈ numberFrom 0 (sortRows (childRows T pid)),
          ∃ a, (cteAssigns L sortRows T none).find?
            (fun x => x.id == pr.2.id) = some a ∧ a.pr = pr.1 := by
        cases hpid : pid with
        | none =>
          intro pr hpr
          have hent : (⟨pr.2.id, pr.1, seg L pr.1, 0⟩ : Assign) ∈
              anchorAssigns L sortRows T none := by
            unfold anchorAssigns
            rw [List.mem_map]
            exact ⟨pr, hpr, rfl⟩
          have h0 : (⟨pr.2.id, pr.1, seg L pr.1, 0⟩ : Assign) ∈
              levels L sortRows T (anchorAssigns L sortRows T none) 0 := hent
          have hA := levels_mem_cte (Nat.succ_pos T.length) h0
          exact ⟨_, cte_find_eq hndA hA rfl, rfl⟩
        | some x =>
          rw [hpid] at hr₀par
          obtain ⟨k₀, hrank₀, hk₀⟩ := wf_rank hwf hr₀T
          rw [hr₀par] at hrank₀
          have hpos := hasRank_some_pos hrank₀
          obtain ⟨k₁, rfl⟩ : ∃ k₁, k₀ = k₁ + 1 := ⟨k₀ - 1, by omega⟩
          obtain ⟨q, hfind, hqrank⟩ := hasRank_some_elim hrank₀
          have hqmem := rowById_mem hfind
          obtain ⟨s, hs, hsid⟩ :=
            levels_complete_none L sortRows T hord hwf.1 k₁ q hqmem.1 hqrank
          have hsx : s.id = x := by rw [hsid, hqmem.2]
          intro pr hpr
          have hent : (⟨pr.2.id, pr.1, s.path ++ "." ++ seg L pr.1,
              s.depth + 1⟩ : Assign) ∈
              childAssigns L sortRows T s.path s.depth s.id := by
            unfold childAssigns
            rw [List.mem_map]
            refine ⟨pr, ?_, rfl⟩
            rw [hsx]
            exact hpr
          have hlev := levels_succ_intro hs hent
          have hA := levels_mem_cte (by omega : k₁ + 1 < T.length + 1) hlev
          exact ⟨_, cte_find_eq hndA hA rfl, rfl⟩
      have h1 : ((childRows T pid).map
            (applyRow (cteAssigns L sortRows T none))).map Row.priority =
          (childRows T pid).map
            (fun r => (applyRow (cteAssigns L sortRows T none) r).priority) := by
        rw [List.map_map]
        rfl
      have h2 := (hord (childRows T pid)).map
        (fun r => (applyRow (cteAssigns L sortRows T none) r).priority)
      have h3 := applied_priorities (cteAssigns L sortRows T none)
        (sortRows (childRows T pid)) 0 hcond
      have h4 := numberFrom_map_fst 0 (sortRows (childRows T pid))
      have h5 : (sortRows (childRows T pid)).map
          (fun r => (applyRow (cteAssigns L sortRows T none) r).priority) =
          List.range (childRows T pid).length := by
        rw [h3, h4, (hord (childRows T pid)).length_eq, List.range_eq_range']
      rw [h1]
      exact h5 ▸ h2.symm


/-- C1 witness: the invariants hold concretely after fully rebuilding the
four-row forest `wTable` with stale derived columns. -/
theorem C1_full_rebuild_invariants_witness :
    ((0 : Nat) < 3 ∧ WF wTable ∧
      (∀ r ∈ wTable, (childRows wTable r.parent_id).length ≤ 16 ^ 3)) ∧
    ((∀ r' ∈ updatePath 3 wTable none, r'.depth = countDots r'.path) ∧
    (∀ r' ∈ updatePath 3 wTable none, ∀ p, r'.parent_id = some p →
      ∃ q ∈ updatePath 3 wTable none, q.id = p ∧
        r'.path = q.path ++ "." ++ lpadZ 3 (hexU r'.priority) ∧
        (hexU r'.priority).length ≤ 3) ∧
    (∀ pid : Option Nat,
      ((childRows (updatePath 3 wTable none) pid).map Row.priority).Perm
        (List.range (childRows (updatePath 3 wTable none) pid).length))) :=
  ⟨⟨by decide, by decide, by decide⟩,
   C1_full_rebuild_invariants 3 wTable (by decide) (by decide) (by decide)⟩

/-! ## Claim C7: the frame of the rebuild -/

theorem levels_anchor_nil (L : Nat) (ord : List Row → List Row) (T : Table) :
    ∀ k, levels L ord T [] k = [] := by
  intro k
  induction k with
  | zero => rfl
  | succ k ih => rw [levels, ih]; rfl

theorem cte_of_no_parent {L : Nat} {ord : List Row → List Row} {T : Table}
    {p : Nat} (h : rowById T p = none) :
    cteAssigns L ord T (some p) = [] := by
  have hanchor : anchorAssigns L ord T (some p) = [] := by
    simp only [anchorAssigns]
    rw [h]
  unfold cteAssigns
  rw [hanchor]
  rw [List.flatMap_congr (fun k _ => levels_anchor_nil L ord T k)]
  simp

/-- C7: a rebuild writes only the derived triple: every row of the result
keeps its `id`, `parent_id` and user columns (here `sortval` and `user`),
and any row that is not a strict descendant of the rebuilt parent is left
entirely unchanged. -/
theorem C7_rebuild_frame (L : Nat) (T : Table) (pid : Option Nat)
    (hwf : WF T) :
    List.Forall₂ (fun r r' =>
      r'.id = r.id ∧ r'.parent_id = r.parent_id ∧ r'.sortval = r.sortval ∧
      r'.user = r.user ∧ (¬ InRebuilt T pid r → r' = r))
      T (updatePath L T pid) := by
  have hord : ∀ l, (sortRows l).Perm l := perm_isortLe lePr
  have hres : updatePath L T pid =
      T.map (applyRow (cteAssigns L sortRows T pid)) := rfl
  rw [hres, List.forall₂_map_right_iff, List.forall₂_same]
  intro r hr
  refine ⟨applyRow_id _ r, applyRow_parent _ r, applyRow_sortval _ r,
    applyRow_user _ r, ?_⟩
  intro hni
  cases hpid : pid with
  | none =>
    rw [hpid] at hni
    exact absurd trivial hni
  | some p =>
    rw [hpid] at hni
    cases hfind : rowById T p with
    | none =>
      apply applyRow_of_none
      rw [cte_of_no_parent hfind]
      rfl
    | some prow =>
      have hpmem := rowById_mem hfind
      obtain ⟨kp, hprank, hkp⟩ := wf_rank hwf hpmem.1
      have hanchor : anchorAssigns L sortRows T (some p) =
          childAssigns L sortRows T prow.path prow.depth p := by
        simp only [anchorAssigns]
        rw [hfind]
      have master := levels_master L sortRows T hord hwf.1
        (anchorAssigns L sortRows T (some p)) (kp + 1)
        (fun i => ∃ r₀ ∈ T, r₀.id = i ∧ BelowRow T p r₀)
        (by
          intro r' q hr' hq hpar hsub
          obtain ⟨r₀, hr₀, hr₀id, hbelow⟩ := hsub
          have hre : r₀ = q := mem_id_unique hwf.1 hr₀ hq hr₀id
          rw [hre] at hbelow
          obtain ⟨f, hf⟩ := hbelow
          refine ⟨r', hr', rfl, ⟨f + 1, ?_⟩⟩
          rw [hpar, ancUp, rowById_eq_self T hwf.1 q hq]
          exact List.mem_cons_of_mem _ hf)
        (by
          intro a ha
          rw [hanchor] at ha
          obtain ⟨r₀, hr₀, hid, hpar, _⟩ := mem_childAssigns_elim hord ha
          refine ⟨r₀, hr₀, hid, ?_, r₀, hr₀, rfl, ⟨1, ?_⟩⟩
          · rw [hpar]
            exact (hasRank_parent hfind kp).2 hprank
          · rw [hpar, ancUp]
            exact List.mem_cons_self _ _)
        (by
          rw [hanchor]
          exact nodupIds_childAssigns prow.path prow.depth p hord hwf.1)
      apply applyRow_of_none
      apply List.find?_eq_none.2
      intro a ha
      simp only [beq_iff_eq]
      intro hid
      obtain ⟨k, hk, hlev⟩ := cte_mem_levels ha
      obtain ⟨r₀, hr₀, hr₀id, hrank₀, r₁, hr₁, hr₁id, hbelow⟩ :=
        (master k).1 a hlev
      have hre : r₁ = r :=
        mem_id_unique hwf.1 hr₁ hr (by rw [hr₁id, hr₀id, hid])
      exact hni (hre ▸ hbelow)


/-- C7 witness: the frame holds concretely when rebuilding the subtree of
node 1 of `wTable`. -/
theorem C7_rebuild_frame_witness :
    WF wTable ∧
    List.Forall₂ (fun r r' =>
      r'.id = r.id ∧ r'.parent_id = r.parent_id ∧ r'.sortval = r.sortval ∧
      r'.user = r.user ∧ (¬ InRebuilt wTable (some 1) r → r' = r))
      wTable (updatePath 3 wTable (some 1)) :=
  ⟨by decide, C7_rebuild_frame 3 wTable (some 1) (by decide)⟩

/-! ## Claim C5: idempotence of the rebuild -/

theorem rowById_applyAssigns (T : Table) (A : List Assign) (i : Nat) :
    rowById (applyAssigns T A) i = (rowById T i).map (applyRow A) := by
  unfold rowById applyAssigns
  induction T with
  | nil => rfl
  | cons r rs ih =>
    simp only [List.map_cons, List.find?]
    have hsame : ((applyRow A r).id == i) = (r.id == i) := by
      rw [applyRow_id]
    rw [hsame]
    cases r.id == i with
    | true => rfl
    | false => exact ih

theorem map_id_applyRow (A : List Assign) (l : List Row) :
    (l.map (applyRow A)).map Row.id = l.map Row.id := by
  rw [List.map_map]
  exact List.map_congr_left (fun r _ => applyRow_id A r)

theorem numberFrom_build_eq (f : Nat → Nat → Assign) :
    ∀ (g g' : List Row), g'.map Row.id = g.map Row.id → ∀ i0,
      (numberFrom i0 g').map (fun ir => f ir.1 ir.2.id) =
        (numberFrom i0 g).map (fun ir => f ir.1 ir.2.id) := by
  intro g
  induction g with
  | nil =>
    intro g' h i0
    cases g' with
    | nil => rfl
    | cons r' rs' => simp at h
  | cons r rs ih =>
    intro g' h i0
    cases g' with
    | nil => simp at h
    | cons r' rs' =>
      simp only [List.map_cons, List.cons.injEq] at h
      simp only [numberFrom, List.map_cons]
      rw [h.1, ih rs' h.2 (i0 + 1)]

theorem childAssigns_congr_ids {L : Nat} {ord : List Row → List Row}
    {T T' : Table} {pp : String} {pd p : Nat}
    (h : (ord (childRows T' (some p))).map Row.id =
      (ord (childRows T (some p))).map Row.id) :
    childAssigns L ord T' pp pd p = childAssigns L ord T pp pd p := by
  unfold childAssigns
  exact numberFrom_build_eq
    (fun i j => (⟨j, i, pp ++ "." ++ seg L i, pd + 1⟩ : Assign)) _ _ h 0

theorem anchorNone_congr_ids {L : Nat} {ord : List Row → List Row}
    {T T' : Table}
    (h : (ord (childRows T' none)).map Row.id =
      (ord (childRows T none)).map Row.id) :
    anchorAssigns L ord T' none = anchorAssigns L ord T none := by
  unfold anchorAssigns
  exact numberFrom_build_eq
    (fun i j => (⟨j, i, seg L i, 0⟩ : Assign)) _ _ h 0

theorem pairwise_lePr_of_priorities {l : List Row} {i n : Nat}
    (h : l.map Row.priority = List.range' i n) :
    l.Pairwise (fun a b => lePr a b = true) := by
  have hpw : (l.map Row.priority).Pairwise (· < ·) := by
    rw [h]
    exact List.pairwise_lt_range' i n
  rw [List.pairwise_map] at hpw
  refine hpw.imp ?_
  intro a b hab
  unfold lePr
  simp only [Bool.or_eq_true, Nat.blt_eq]
  exact Or.inl hab

/-- The stable re-sort: once the rebuild has written the rank of every
group member as its priority, sorting the updated rows by
`(priority, id)` reproduces exactly the order the first sort chose. -/
theorem sort_applied (A : List Assign) (g : List Row)
    (hgnd : (g.map Row.id).Nodup)
    (hcond : ∀ pr ∈ numberFrom 0 (sortRows g),
      ∃ a, A.find? (fun x => x.id == pr.2.id) = some a ∧ a.pr = pr.1) :
    sortRows (g.map (applyRow A)) = (sortRows g).map (applyRow A) := by
  have hord : ∀ l, (sortRows l).Perm l := perm_isortLe lePr
  have hperm : (sortRows (g.map (applyRow A))).Perm
      ((sortRows g).map (applyRow A)) :=
    (hord _).trans ((hord g).map (applyRow A)).symm
  have hpr : ((sortRows g).map (applyRow A)).map Row.priority =
      List.range' 0 (sortRows g).length := by
    rw [List.map_map]
    have := applied_priorities A (sortRows g) 0 hcond
    rw [← numberFrom_map_fst 0 (sortRows g)]
    exact this
  have hs₂ := pairwise_lePr_of_priorities hpr
  have hs₁ := pairwise_isortLe lePr lePr_total lePr_trans (g.map (applyRow A))
  have hndup : ((sortRows (g.map (applyRow A))).map Row.id).Nodup := by
    have h1 : ((g.map (applyRow A)).map Row.id).Nodup := by
      rw [map_id_applyRow]
      exact hgnd
    exact ((hord (g.map (applyRow A))).map Row.id).nodup_iff.2 h1
  refine eq_of_perm_of_pairwise lePr _ _ hperm hs₁ hs₂ ?_
  intro a ha b hb hab hba
  obtain ⟨hpri, hid⟩ := lePr_antisymm_of_ids hab hba
  exact nodup_id_unique hndup ha hb hid

theorem master_some (L : Nat) (ord : List Row → List Row) (T : Table)
    (hord : ∀ l, (ord l).Perm l) (hnd : NodupIds T) {p : Nat} {prow : Row}
    {kp : Nat} (hfind : rowById T p = some prow)
    (hprank : HasRank T prow.parent_id kp) :
    ∀ k, (∀ a ∈ levels L ord T (anchorAssigns L ord T (some p)) k,
        ∃ r ∈ T, r.id = a.id ∧ HasRank T r.parent_id (kp + 1 + k)) ∧
      ((levels L ord T (anchorAssigns L ord T (some p)) k).map
        Assign.id).Nodup := by
  intro k
  have hanchor : anchorAssigns L ord T (some p) =
      childAssigns L ord T prow.path prow.depth p := by
    simp only [anchorAssigns]
    rw [hfind]
  have h := levels_master L ord T hord hnd (anchorAssigns L ord T (some p))
    (kp + 1) (fun _ => True) (fun _ _ _ _ _ _ => trivial)
    (fun a ha => by
      rw [hanchor] at ha
      obtain ⟨r, hr, hid, hpar, _⟩ := mem_childAssigns_elim hord ha
      refine ⟨r, hr, hid, ?_, trivial⟩
      rw [hpar]
      exact (hasRank_parent hfind kp).2 hprank)
    (by
      rw [hanchor]
      exact nodupIds_childAssigns prow.path prow.depth p hord hnd) k
  refine ⟨fun a ha => ?_, h.2⟩
  obtain ⟨r, hr, hid, hrank, _⟩ := h.1 a ha
  exact ⟨r, hr, hid, hrank⟩

theorem nodupIds_cte_some (L : Nat) (ord : List Row → List Row) (T : Table)
    (hord : ∀ l, (ord l).Perm l) (hwf : WF T) {p : Nat} {prow : Row}
    {kp : Nat} (hfind : rowById T p = some prow)
    (hprank : HasRank T prow.parent_id kp) :
    ((cteAssigns L ord T (some p)).map Assign.id).Nodup := by
  unfold cteAssigns
  apply nodupIds_flatMap_range
  · intro k
    exact (master_some L ord T hord hwf.1 hfind hprank k).2
  · intro k₁ k₂ a₁ a₂ h₁ h₂ hid
    obtain ⟨r₁, hr₁, hid₁, hrank₁⟩ :=
      (master_some L ord T hord hwf.1 hfind hprank k₁).1 a₁ h₁
    obtain ⟨r₂, hr₂, hid₂, hrank₂⟩ :=
      (master_some L ord T hord hwf.1 hfind hprank k₂).1 a₂ h₂
    have hre : r₁ = r₂ := mem_id_unique hwf.1 hr₁ hr₂ (by rw [hid₁, hid₂, hid])
    rw [hre] at hrank₁
    have := hasRank_unique hrank₁ hrank₂
    omega

theorem p_not_assigned (L : Nat) (ord : List Row → List Row) (T : Table)
    (hord : ∀ l, (ord l).Perm l) (hwf : WF T) {p : Nat} {prow : Row}
    {kp : Nat} (hfind : rowById T p = some prow)
    (hprank : HasRank T prow.parent_id kp) :
    (cteAssigns L ord T (some p)).find? (fun x => x.id == p) = none := by
  apply List.find?_eq_none.2
  intro a ha
  simp only [beq_iff_eq]
  intro hid
  obtain ⟨k, hk, hlev⟩ := cte_mem_levels ha
  obtain ⟨r, hr, hrid, hrank⟩ :=
    (master_some L ord T hord hwf.1 hfind hprank k).1 a hlev
  have hre : r = prow := mem_id_unique hwf.1 hr (rowById_mem hfind).1
    (by rw [hrid, hid, (rowById_mem hfind).2])
  rw [hre] at hrank
  have := hasRank_unique hrank hprank
  omega

theorem applyRow_idem (A : List Assign) (r : Row) :
    applyRow A (applyRow A r) = applyRow A r := by
  cases hf : A.find? (fun a => a.id == r.id) with
  | none => rw [applyRow_of_none hf, applyRow_of_none hf]
  | some a =>
    rw [applyRow_of_some hf]
    have hf' : A.find? (fun x => x.id ==
        ({ r with priority := a.pr, path := a.path, depth := a.depth } :
          Row).id) = some a := hf
    rw [applyRow_of_some hf']

theorem applyAssigns_nil (T : Table) : applyAssigns T [] = T := by
  unfold applyAssigns
  have h : ∀ r ∈ T, applyRow [] r = r := fun r _ => applyRow_of_none rfl
  rw [List.map_congr_left h]
  exact List.map_id' T

theorem anchor_mem_cte {L : Nat} {ord : List Row → List Row} {T : Table}
    {pid : Option Nat} {a : Assign}
    (h : a ∈ anchorAssigns L ord T pid) : a ∈ cteAssigns L ord T pid := by
  have h0 : a ∈ levels L ord T (anchorAssigns L ord T pid) 0 := h
  exact levels_mem_cte (Nat.succ_pos T.length) h0

theorem group_cond (L : Nat) (T : Table) (pid : Option Nat)
    (hndA : ((cteAssigns L sortRows T pid).map Assign.id).Nodup)
    {s : Assign} {k : Nat}
    (hs : s ∈ levels L sortRows T (anchorAssigns L sortRows T pid) k)
    (hk : k + 1 < T.length + 1) :
    ∀ pr ∈ numberFrom 0 (sortRows (childRows T (some s.id))),
      ∃ a, (cteAssigns L sortRows T pid).find?
        (fun x => x.id == pr.2.id) = some a ∧ a.pr = pr.1 := by
  intro pr hpr
  have hent : (⟨pr.2.id, pr.1, s.path ++ "." ++ seg L pr.1, s.depth + 1⟩ :
      Assign) ∈ childAssigns L sortRows T s.path s.depth s.id := by
    unfold childAssigns
    rw [List.mem_map]
    exact ⟨pr, hpr, rfl⟩
  exact ⟨_, cte_find_eq hndA
    (levels_mem_cte hk (levels_succ_intro hs hent)) rfl, rfl⟩

theorem childAssigns_step (L : Nat) (T : Table) (A : List Assign)
    (pp : String) (pd x : Nat)
    (hgnd : ((childRows T (some x)).map Row.id).Nodup)
    (hcond : ∀ pr ∈ numberFrom 0 (sortRows (childRows T (some x))),
      ∃ a, A.find? (fun q => q.id == pr.2.id) = some a ∧ a.pr = pr.1) :
    childAssigns L sortRows (applyAssigns T A) pp pd x =
      childAssigns L sortRows T pp pd x := by
  apply childAssigns_congr_ids
  rw [childRows_applyAssigns, sort_applied A _ hgnd hcond]
  exact map_id_applyRow A _

theorem levels_lockstep (L : Nat) (T : Table) (pid : Option Nat)
    (A : List Assign) (hA : A = cteAssigns L sortRows T pid)
    (hnd : NodupIds T)
    (hndA : ((cteAssigns L sortRows T pid).map Assign.id).Nodup)
    (hE1 : anchorAssigns L sortRows (applyAssigns T A) pid =
      anchorAssigns L sortRows T pid) :
    ∀ k, k < T.length + 1 →
      levels L sortRows (applyAssigns T A)
        (anchorAssigns L sortRows (applyAssigns T A) pid) k =
      levels L sortRows T (anchorAssigns L sortRows T pid) k := by
  subst hA
  intro k
  induction k with
  | zero => intro _; exact hE1
  | succ k ih =>
    intro hk1
    have hk : k < T.length + 1 := by omega
    show (levels L sortRows (applyAssigns T (cteAssigns L sortRows T pid))
        (anchorAssigns L sortRows
          (applyAssigns T (cteAssigns L sortRows T pid)) pid) k).flatMap
        (fun s => childAssigns L sortRows
          (applyAssigns T (cteAssigns L sortRows T pid))
          s.path s.depth s.id) =
      (levels L sortRows T (anchorAssigns L sortRows T pid) k).flatMap
        (fun s => childAssigns L sortRows T s.path s.depth s.id)
    rw [ih hk]
    apply List.flatMap_congr
    intro s hs
    exact childAssigns_step L T (cteAssigns L sortRows T pid)
      s.path s.depth s.id (nodupIds_childRows hnd (some s.id))
      (group_cond L T pid hndA hs hk1)

theorem cte_applied_eq (L : Nat) (T : Table) (pid : Option Nat)
    (A : List Assign) (hlen : (applyAssigns T A).length = T.length)
    (hlev : ∀ k, k < T.length + 1 →
      levels L sortRows (applyAssigns T A)
        (anchorAssigns L sortRows (applyAssigns T A) pid) k =
      levels L sortRows T (anchorAssigns L sortRows T pid) k) :
    cteAssigns L sortRows (applyAssigns T A) pid =
      cteAssigns L sortRows T pid := by
  unfold cteAssigns
  rw [hlen]
  exact List.flatMap_congr (fun k hk => hlev k (List.mem_range.1 hk))

theorem applyAssigns_idem (T : Table) (A : List Assign) :
    applyAssigns (applyAssigns T A) A = applyAssigns T A := by
  unfold applyAssigns
  rw [List.map_map]
  exact List.map_congr_left (fun r _ => applyRow_idem A r)

/-- C5: on every well-formed table state and for every `parent_id`
argument (`NULL` included), running the compiler rebuild `update_path`
twice in succession with no intervening mutation yields the same table as
running it once — the second invocation changes no row's `priority`,
`_path` or `_depth`. -/
theorem C5_update_path_idempotent (L : Nat) (T : Table) (pid : Option Nat)
    (hwf : WF T) :
    updatePath L (updatePath L T pid) pid = updatePath L T pid := by
  have hord : ∀ l, (sortRows l).Perm l := perm_isortLe lePr
  cases pid with
  | none =>
    have hndA := nodupIds_cte_none L sortRows T hord hwf.1
    have hcond0 : ∀ pr ∈ numberFrom 0 (sortRows (childRows T none)),
        ∃ a, (cteAssigns L sortRows T none).find?
          (fun x => x.id == pr.2.id) = some a ∧ a.pr = pr.1 := by
      intro pr hpr
      have hent : (⟨pr.2.id, pr.1, seg L pr.1, 0⟩ : Assign) ∈
          anchorAssigns L sortRows T none := by
        unfold anchorAssigns
        rw [List.mem_map]
        exact ⟨pr, hpr, rfl⟩
      exact ⟨_, cte_find_eq hndA (anchor_mem_cte hent) rfl, rfl⟩
    have hE1 : anchorAssigns L sortRows
        (applyAssigns T (cteAssigns L sortRows T none)) none =
        anchorAssigns L sortRows T none := by
      apply anchorNone_congr_ids
      rw [childRows_applyAssigns, sort_applied _ _
        (nodupIds_childRows hwf.1 none) hcond0]
      exact map_id_applyRow _ _
    unfold updatePath updatePathWith
    rw [cte_applied_eq L T none (cteAssigns L sortRows T none)
      (applyAssigns_length T _)
      (levels_lockstep L T none (cteAssigns L sortRows T none) rfl
        hwf.1 hndA hE1)]
    exact applyAssigns_idem T _
  | some p =>
    cases hfind : rowById T p with
    | none =>
      have h1 : updatePath L T (some p) = T := by
        unfold updatePath updatePathWith
        rw [cte_of_no_parent hfind, applyAssigns_nil]
      rw [h1, h1]
    | some prow =>
      obtain ⟨kp, hprank, hkp⟩ := wf_rank hwf (rowById_mem hfind).1
      have hndA := nodupIds_cte_some L sortRows T hord hwf hfind hprank
      have hprowkeep : applyRow (cteAssigns L sortRows T (some p)) prow =
          prow := by
        apply applyRow_of_none
        rw [(rowById_mem hfind).2]
        exact p_not_assigned L sortRows T hord hwf hfind hprank
      have hanchorT : anchorAssigns L sortRows T (some p) =
          childAssigns L sortRows T prow.path prow.depth p := by
        simp only [anchorAssigns]
        rw [hfind]
      have hfind2 : rowById
          (applyAssigns T (cteAssigns L sortRows T (some p))) p =
          some prow := by
        rw [rowById_applyAssigns, hfind, Option.map_some', hprowkeep]
      have hanchorT2 : anchorAssigns L sortRows
          (applyAssigns T (cteAssigns L sortRows T (some p))) (some p) =
          childAssigns L sortRows
            (applyAssigns T (cteAssigns L sortRows T (some p)))
            prow.path prow.depth p := by
        simp only [anchorAssigns]
        rw [hfind2]
      have hcondp : ∀ pr ∈ numberFrom 0 (sortRows (childRows T (some p))),
          ∃ a, (cteAssigns L sortRows T (some p)).find?
            (fun x => x.id == pr.2.id) = some a ∧ a.pr = pr.1 := by
        intro pr hpr
        have hent : (⟨pr.2.id, pr.1, prow.path ++ "." ++ seg L pr.1,
            prow.depth + 1⟩ : Assign) ∈
            childAssigns L sortRows T prow.path prow.depth p := by
          unfold childAssigns
          rw [List.mem_map]
          exact ⟨pr, hpr, rfl⟩
        rw [← hanchorT] at hent
        exact ⟨_, cte_find_eq hndA (anchor_mem_cte hent) rfl, rfl⟩
      have hE1 : anchorAssigns L sortRows
          (applyAssigns T (cteAssigns L sortRows T (some p))) (some p) =
          anchorAssigns L sortRows T (some p) := by
        rw [hanchorT2, hanchorT]
        exact childAssigns_step L T (cteAssigns L sortRows T (some p))
          prow.path prow.depth p (nodupIds_childRows hwf.1 (some p)) hcondp
      unfold updatePath updatePathWith
      rw [cte_applied_eq L T (some p) (cteAssigns L sortRows T (some p))
        (applyAssigns_length T _)
        (levels_lockstep L T (some p) (cteAssigns L sortRows T (some p))
          rfl hwf.1 hndA hE1)]
      exact applyAssigns_idem T _

/-- C5 witness: rebuilding the four-row forest `wTable` twice (full
rebuild) leaves the first rebuild's result unchanged. -/
theorem C5_update_path_idempotent_witness :
    WF wTable ∧
    updatePath 3 (updatePath 3 wTable none) none =
      updatePath 3 wTable none :=
  ⟨by decide, C5_update_path_idempotent 3 wTable none (by decide)⟩

end TreeNode
